import Mathlib

/-!
# Verification of the video-processing workflow

A shallow embedding of the video moderation pipeline
(`src/lib/video-storage.ts`, `src/ai/providers/gemini-provider.ts`,
`src/workflows/steps/streaming.ts`, and the client-side stream consumer in
`src/unnamed/part_000`), together with proofs of the behavioural claims
about it.

Modelling conventions:
* JavaScript numbers that are used as integers (percent, counts, timestamps,
  category confidences) are modelled as `Nat`; the one genuinely fractional
  quantity (the normalised incident confidence `highestConfidence / 5`) is
  modelled as `ℚ`.
* Exceptions are modelled with `Except String`; the environment (network,
  blob store, classification model, ffmpeg, Math.random) is an explicit
  record of outcomes.
* The concurrent analysis stage (`Promise.all` + `pLimit(10)`) is modelled
  as a small-step machine: a schedule (`List Choice`) picks, at every step,
  which in-flight frame settles next or whether the orchestrator's catch
  block makes progress.  An atomic step of the machine corresponds to a
  synchronous block of JavaScript between two await points.
-/

namespace VideoWorkflow

/-! ## Content analysis data model (`src/ai/.../types` and `gemini-provider.ts`)

`categoryDetectionSchema`: `detected : bool`, `confidence : 1..5`, `reason`.
The schema bound `1 ≤ confidence ≤ 5` is a validation constraint, carried
as a hypothesis where a claim needs it. -/

structure CategoryDetection where
  detected : Bool
  confidence : Nat
  reason : String
deriving DecidableEq, Repr

/-- The four 16+ categories, in the field order of `sixteenPlusSchema`. -/
structure SixteenPlusCategories where
  cursing : CategoryDetection
  moderate_violence : CategoryDetection
  strong_language : CategoryDetection
  mild_sexual_content : CategoryDetection
deriving DecidableEq, Repr

/-- The eight 18+ categories, in the field order of `eighteenPlusSchema`. -/
structure EighteenPlusCategories where
  nudity : CategoryDetection
  drug_use : CategoryDetection
  rape : CategoryDetection
  murder : CategoryDetection
  stabbing : CategoryDetection
  gore : CategoryDetection
  extreme_profanity : CategoryDetection
  disturbing_themes : CategoryDetection
deriving DecidableEq, Repr

structure ContentAnalysis where
  sixteenPlus : SixteenPlusCategories
  eighteenPlus : EighteenPlusCategories
deriving DecidableEq, Repr

/-- `Object.values(sixteenPlus)` in schema field order. -/
def sixteenPlusValues (s : SixteenPlusCategories) : List CategoryDetection :=
  [s.cursing, s.moderate_violence, s.strong_language, s.mild_sexual_content]

/-- `Object.values(eighteenPlus)` in schema field order. -/
def eighteenPlusValues (e : EighteenPlusCategories) : List CategoryDetection :=
  [e.nudity, e.drug_use, e.rape, e.murder, e.stabbing, e.gore,
   e.extreme_profanity, e.disturbing_themes]

/-- All twelve categories of an analysis, 16+ first, as iterated by
`calculateRating`. -/
def allValues (a : ContentAnalysis) : List CategoryDetection :=
  sixteenPlusValues a.sixteenPlus ++ eighteenPlusValues a.eighteenPlus

/-- The rating strings `"safe" | "16+" | "18+"`. -/
inductive Rating where
  | safe
  | sixteenPlus
  | eighteenPlus
deriving DecidableEq, Repr

structure RatingSummary where
  sixteenPlusDetections : Nat
  eighteenPlusDetections : Nat
  highestConfidence : Nat
deriving DecidableEq, Repr

structure ContentRating where
  rating : Rating
  analysis : ContentAnalysis
  summary : RatingSummary
deriving DecidableEq, Repr

/-- `calculateRating` from `gemini-provider.ts`: counts categories with
`detected && confidence >= 3` per tier, tracks the maximum confidence over
all twelve categories (detected or not), and rates 18+ / 16+ / safe. -/
def calculateRating (analysis : ContentAnalysis) : ContentRating :=
  let sixteenPlusDetections :=
    ((sixteenPlusValues analysis.sixteenPlus).filter
      (fun c => c.detected && decide (3 ≤ c.confidence))).length
  let eighteenPlusDetections :=
    ((eighteenPlusValues analysis.eighteenPlus).filter
      (fun c => c.detected && decide (3 ≤ c.confidence))).length
  let highestConfidence := ((allValues analysis).map (·.confidence)).foldl max 0
  let rating :=
    if 0 < eighteenPlusDetections then Rating.eighteenPlus
    else if 0 < sixteenPlusDetections then Rating.sixteenPlus
    else Rating.safe
  { rating := rating, analysis := analysis,
    summary := { sixteenPlusDetections := sixteenPlusDetections,
                 eighteenPlusDetections := eighteenPlusDetections,
                 highestConfidence := highestConfidence } }

/-- `moderateContentSync`: runs the model call (whose outcome — a parsed
analysis, an API failure, or the 120 s timeout — is supplied by the
environment) and on success computes `calculateRating`. -/
def moderateContentSync (classification : Except String ContentAnalysis) :
    Except String ContentRating :=
  classification.map calculateRating

/-! ## Frame analysis (`moderateFrame` / `processOneFrame` in `video-storage.ts`) -/

/-- One extracted frame reference (the in-memory buffer is irrelevant to the
claims; we keep the timestamp and filename). -/
structure Frame where
  timestamp : Nat
  filename : String
deriving DecidableEq, Repr

/-- Per-frame environment: the outcome of the classification call
(`moderateContentSync`, including the 2-minute timeout as an error), the
`Math.random()` draws used by the fallback branch, and the outcome of the
screenshot blob upload. -/
structure FrameEnv where
  classification : Except String ContentAnalysis
  fallbackRoll : Bool
  fallbackConfidence : ℚ
  fallbackCategory : Fin 3
  screenshotUpload : Except String String
deriving Repr

/-- What `moderateFrame` returns.  The JavaScript object has no `analysis`
or `fallback` key on some branches; an absent key reads as
`undefined`/falsy, modelled by `none` / `false`. -/
structure ModerationResult where
  isFlagged : Bool
  confidence : ℚ
  categories : Option String
  rating : Rating
  analysis : Option ContentAnalysis
  fallback : Bool
deriving DecidableEq, Repr

/-- The category-name list built by `moderateFrame` for a flagged frame,
one `push` per detected category, in source order. -/
def flaggedCategoryNames (a : ContentAnalysis) : List String :=
  (if a.sixteenPlus.cursing.detected then ["cursing"] else []) ++
  (if a.sixteenPlus.moderate_violence.detected then ["moderate_violence"] else []) ++
  (if a.sixteenPlus.strong_language.detected then ["strong_language"] else []) ++
  (if a.sixteenPlus.mild_sexual_content.detected then ["mild_sexual"] else []) ++
  (if a.eighteenPlus.nudity.detected then ["nudity"] else []) ++
  (if a.eighteenPlus.drug_use.detected then ["drug_use"] else []) ++
  (if a.eighteenPlus.rape.detected then ["sexual_assault"] else []) ++
  (if a.eighteenPlus.murder.detected then ["murder"] else []) ++
  (if a.eighteenPlus.stabbing.detected then ["stabbing"] else []) ++
  (if a.eighteenPlus.gore.detected then ["gore"] else []) ++
  (if a.eighteenPlus.extreme_profanity.detected then ["extreme_profanity"] else []) ++
  (if a.eighteenPlus.disturbing_themes.detected then ["disturbing"] else [])

/-- `categories.length > 0 ? categories.join(", ") : "flagged"`. -/
def categoriesString (a : ContentAnalysis) : String :=
  let cs := flaggedCategoryNames a
  if cs.isEmpty then "flagged" else String.intercalate ", " cs

/-- The mock category drawn by the fallback branch. -/
def fallbackCategoryName : Fin 3 → String
  | 0 => "adult"
  | 1 => "violence"
  | 2 => "gore"

/-- `moderateFrame`: classify the frame via `moderateContentSync`; a frame is
flagged when its rating is 16+ or 18+.  Any classification error (API
failure or timeout) is caught here and replaced by the randomized mock
fallback, whose result carries `fallback: true`.  This function is total:
it never propagates the classification error. -/
def moderateFrame (fenv : FrameEnv) : ModerationResult :=
  match moderateContentSync fenv.classification with
  | .ok result =>
    if result.rating = Rating.sixteenPlus ∨ result.rating = Rating.eighteenPlus then
      { isFlagged := true,
        confidence := (result.summary.highestConfidence : ℚ) / 5,
        categories := some (categoriesString result.analysis),
        rating := result.rating,
        analysis := some result.analysis,
        fallback := false }
    else
      { isFlagged := false, confidence := 0, categories := none,
        rating := Rating.safe, analysis := none, fallback := false }
  | .error _ =>
    if fenv.fallbackRoll then
      { isFlagged := true, confidence := fenv.fallbackConfidence,
        categories := some (fallbackCategoryName fenv.fallbackCategory),
        rating := Rating.eighteenPlus, analysis := none, fallback := true }
    else
      { isFlagged := false, confidence := 0, categories := none,
        rating := Rating.safe, analysis := none, fallback := true }

/-- An incident record as assembled by `processOneFrame` for a flagged
frame (field order matters for serialization; `analysis` is dropped from
the JSON when `undefined`). -/
structure Incident where
  timestamp : Nat
  confidence : ℚ
  categories : String
  screenshotUrl : String
  rating : Rating
  analysis : Option ContentAnalysis
deriving DecidableEq, Repr

/-- `processOneFrame`: moderate the frame; if flagged, upload the screenshot
(which may throw — that exception propagates) and build the incident;
otherwise return `null`. -/
def processOneFrame (frame : Frame) (fenv : FrameEnv) :
    Except String (Option Incident) :=
  let m := moderateFrame fenv
  if m.isFlagged then
    match fenv.screenshotUpload with
    | .error e => .error e
    | .ok url =>
      .ok (some { timestamp := frame.timestamp, confidence := m.confidence,
                  categories := m.categories.getD "flagged",
                  screenshotUrl := url, rating := m.rating,
                  analysis := m.analysis })
  else
    .ok none

/-! ## Progress events and job results (the wire records of `writeProgress`) -/

structure Metadata where
  filename : String
deriving DecidableEq, Repr

structure JobResult where
  incidents : List Incident
  totalFrames : Nat
  processedAt : String
  metadata : Metadata
deriving DecidableEq, Repr

/-- The records passed to `writeProgress`, with exactly the keys the source
constructs (the `extracted` progress event additionally carries
`totalFrames`; the error event carries both `message` and `error`). -/
inductive ProgressEvent where
  | progress (step message : String) (totalFrames : Option Nat) (percent : Nat)
  | frameProcessed (message : String) (current total percent : Nat)
  | complete (message : String) (percent : Nat) (result : JobResult)
  | error (message errorField : String)
deriving DecidableEq, Repr

/-- The percent fields of the `progress`/`frameProcessed` events of a trace,
in emission order (`complete`/`error` events carry no progress percent for
the monotonicity invariant of the spec). -/
def percents (t : List ProgressEvent) : List Nat :=
  t.filterMap fun ev =>
    match ev with
    | .progress _ _ _ p => some p
    | .frameProcessed _ _ _ p => some p
    | _ => none

/-- The error events of a trace. -/
def errEvents (t : List ProgressEvent) : List ProgressEvent :=
  t.filter fun ev => match ev with | .error _ _ => true | _ => false

/-- The complete events of a trace. -/
def compEvents (t : List ProgressEvent) : List ProgressEvent :=
  t.filter fun ev => match ev with | .complete _ _ _ => true | _ => false

/-- Terminal events: `complete` or `error`. -/
def isTerminal : ProgressEvent → Bool
  | .complete _ _ _ => true
  | .error _ _ => true
  | _ => false

/-! ## Frame extraction (`extractFrames` in `video-storage.ts`)

The model tracks, besides the returned value, which of the two scratch
locations (`videoPath`, `framesDir`) still exist on disk when the function
returns or throws.  The `try` block deletes both only after a successful
run; the `catch` block merely logs and rethrows. -/

structure ExtractEnv where
  fetchOk : Bool
  statusText : String
  byteLen : Nat
  statSize : Nat
  ffmpegOk : Bool
  ffmpegMsg : String
  frameFiles : List String
deriving Repr

structure FsState where
  videoFile : Bool
  framesDir : Bool
deriving DecidableEq, Repr

/-- Attach timestamps `index * 5` to the listed frame files, as the
`frameFiles.map((frameFile, index) => ...)` loop does. -/
def framesOf : Nat → List String → List Frame
  | _, [] => []
  | i, f :: fs => { timestamp := i * 5, filename := f } :: framesOf (i + 1) fs

/-- `extractFrames`: download, verify size, run ffmpeg, read the frames
(deleting each frame file), then delete the video file and the frames
directory.  Every failure path rethrows without touching the files created
so far. -/
def extractFrames (env : ExtractEnv) : Except String (List Frame) × FsState :=
  if !env.fetchOk then
    (.error ("Failed to download video: " ++ env.statusText),
     { videoFile := false, framesDir := false })
  else
    -- writeFile(videoPath, videoBuffer)
    let fs1 : FsState := { videoFile := true, framesDir := false }
    if env.statSize ≠ env.byteLen then
      (.error ("File size mismatch: wrote " ++ toString env.statSize ++
               " bytes, expected " ++ toString env.byteLen), fs1)
    else
      -- mkdir -p framesDir
      let fs2 : FsState := { fs1 with framesDir := true }
      if !env.ffmpegOk then
        (.error env.ffmpegMsg, fs2)
      else
        -- read each frame (unlinking it), then unlink video, rmdir framesDir
        (.ok (framesOf 0 env.frameFiles),
         { videoFile := false, framesDir := false })

/-! ## Blob deletion (`deleteVideoBlob`)

`del(videoUrl)` may reject; `deleteVideoBlob` catches, logs, and does not
rethrow, so its observable outcome is always success. -/

def deleteVideoBlob (delCall : Except String Unit) : Except String Unit :=
  match delCall with
  | .ok _ => .ok ()
  | .error _ => .ok ()   -- logged only; cleanup failure must not fail the workflow

/-! ## The bounded-concurrency analysis stage and the orchestrator

`processVideoUpload` maps every frame through `pLimit(MAX_CONCURRENT)`;
each limited task awaits `processOneFrame`, increments `processedCount`,
and writes one `frameProcessed` event.  We model this stage as a
small-step machine over an explicit scheduler: a `Choice.task k` settles
the `k`-th currently in-flight frame, a `Choice.catchAct` lets the
orchestrator's catch block advance by one await point (emit the error
event, attempt the blob deletion, rethrow).  The contiguous JavaScript
between two await points is one atomic step; in particular a frame's
`processedCount++` and the enqueueing of its `frameProcessed` write are a
single step, while in-flight frames may interleave freely with the catch
block, because promises are never cancelled and `pLimit` keeps admitting
queued tasks after `Promise.all` has already rejected. -/

def MAX_CONCURRENT : Nat := 10

inductive Choice where
  | task (k : Nat)
  | catchAct
deriving DecidableEq, Repr

/-- Immutable context of the analysis stage. -/
structure AnCtx where
  frames : List Frame
  fenv : Nat → FrameEnv
  videoUrl : String

/-- Machine state: `waiting` holds the indices `pLimit` has queued (in
submission order), `running` the in-flight indices, `results` the
collected per-index outcomes (`Promise.all` keyed by input position),
`count` is `processedCount`, `err` the first rejection seen by
`Promise.all`, `catchStage` how far the catch block has run, and
`finished` is set once the catch block rethrows. -/
structure AnSt where
  waiting : List Nat
  running : List Nat
  results : List (Option (Option Incident))
  count : Nat
  err : Option String
  catchStage : Nat
  finished : Option String
  trace : List ProgressEvent
  dels : List String
deriving Repr

/-- `pLimit` admission: whenever fewer than `MAX_CONCURRENT` tasks are in
flight and the queue is nonempty, the next queued task starts at once. -/
def fillAux : List Nat → List Nat → List Nat × List Nat
  | [], running => ([], running)
  | i :: rest, running =>
    if running.length < MAX_CONCURRENT then fillAux rest (running ++ [i])
    else (i :: rest, running)

def fill (st : AnSt) : AnSt :=
  let p := fillAux st.waiting st.running
  { st with waiting := p.1, running := p.2 }

/-- The settled outcome of the limited task for frame `idx`. -/
def taskOutcome (frames : List Frame) (fenv : Nat → FrameEnv) (idx : Nat) :
    Except String (Option Incident) :=
  match frames.get? idx with
  | some f => processOneFrame f (fenv idx)
  | none => .ok none

def frameMsg (c t : Nat) : String :=
  "Processing frame " ++ toString c ++ " of " ++ toString t

/-- One atomic step of the analysis stage / catch block. -/
def step (ctx : AnCtx) (st : AnSt) (ch : Choice) : AnSt :=
  if st.finished.isSome then st
  else
    match ch with
    | .task k =>
      match st.running.get? k with
      | none => st
      | some idx =>
        match taskOutcome ctx.frames ctx.fenv idx with
        | .ok r =>
          fill { st with
                 running := st.running.eraseIdx k,
                 results := st.results.set idx (some r),
                 count := st.count + 1,
                 trace := st.trace ++ [ProgressEvent.frameProcessed
                   (frameMsg (st.count + 1) ctx.frames.length)
                   (st.count + 1) ctx.frames.length
                   (40 + (st.count + 1) * 50 / ctx.frames.length)] }
        | .error e =>
          -- Promise.all keeps only the first rejection; pLimit still
          -- frees the slot and admits the next queued frame.
          fill { st with running := st.running.eraseIdx k,
                         err := some (st.err.getD e) }
    | .catchAct =>
      match st.err with
      | none => st
      | some e =>
        match st.catchStage with
        | 0 => { st with trace := st.trace ++ [ProgressEvent.error e e],
                         catchStage := 1 }
        | 1 =>
          -- `await deleteVideoBlob(videoUrl)`: the attempt is recorded;
          -- `deleteVideoBlob` absorbs any failure of the underlying del().
          { st with dels := st.dels ++ [ctx.videoUrl], catchStage := 2 }
        | _ => { st with finished := some e }

def initSt (ctx : AnCtx) (trace0 : List ProgressEvent) : AnSt :=
  fill { waiting := List.range ctx.frames.length, running := [],
         results := List.replicate ctx.frames.length none, count := 0,
         err := none, catchStage := 0, finished := none,
         trace := trace0, dels := [] }

def runChoices (ctx : AnCtx) (choices : List Choice) (st : AnSt) : AnSt :=
  choices.foldl (step ctx) st

/-- After the scheduler's choices are exhausted, the run is completed
deterministically: every remaining frame settles (head of the in-flight
list first), then the catch block — if a rejection is pending — runs to
its rethrow. -/
def flushChoices (ctx : AnCtx) : List Choice :=
  List.replicate ctx.frames.length (Choice.task 0) ++
    [Choice.catchAct, Choice.catchAct, Choice.catchAct]

def runAnalysis (ctx : AnCtx) (choices : List Choice)
    (trace0 : List ProgressEvent) : AnSt :=
  runChoices ctx (choices ++ flushChoices ctx) (initSt ctx trace0)

/-- Whole-job environment. -/
structure JobEnv where
  uploadVideo : Except String String
  extract : ExtractEnv
  frameEnv : Nat → FrameEnv
  delCall : Except String Unit
  processedAt : String
  filename : String

/-- Observable output of one job run: the event sequence written to the
stream, the workflow's return/throw, and the blob-deletion attempts. -/
structure JobOut where
  trace : List ProgressEvent
  outcome : Except String JobResult
  dels : List String
deriving Repr

/-- `processVideoUpload`: the stage orchestrator.  Stages before and after
the analysis loop are sequential; the analysis loop runs under the given
schedule.  On any exception it writes one error event, attempts to delete
the uploaded video if one exists, and rethrows. -/
def processVideoUpload (env : JobEnv) (choices : List Choice) : JobOut :=
  let t0 := [ProgressEvent.progress "started" "Starting video processing" none 5]
  match env.uploadVideo with
  | .error e =>
    { trace := t0 ++ [ProgressEvent.error e e], outcome := .error e, dels := [] }
  | .ok url =>
    let t1 := t0 ++ [ProgressEvent.progress "uploaded" "Video uploaded to storage" none 20]
    match (extractFrames env.extract).1 with
    | .error e =>
      let _ := deleteVideoBlob env.delCall
      { trace := t1 ++ [ProgressEvent.error e e], outcome := .error e, dels := [url] }
    | .ok frames =>
      let n := frames.length
      let t2 := t1 ++ [ProgressEvent.progress "extracted"
                        ("Extracted " ++ toString n ++ " frames") (some n) 40]
      let ctx : AnCtx := { frames := frames, fenv := env.frameEnv,
                           videoUrl := url }
      let st := runAnalysis ctx choices t2
      match st.finished with
      | some e => { trace := st.trace, outcome := .error e, dels := st.dels }
      | none =>
        let t3 := st.trace ++ [ProgressEvent.progress "cleanup"
                    "Cleaning up temporary files" none 95]
        let _ := deleteVideoBlob env.delCall
        let result : JobResult :=
          { incidents := (st.results.filterMap id).filterMap id,
            totalFrames := n, processedAt := env.processedAt,
            metadata := { filename := env.filename } }
        { trace := t3 ++ [ProgressEvent.complete "Processing complete" 100 result],
          outcome := .ok result, dels := st.dels ++ [url] }

/-! ## Helper lemmas about the admission function and traces -/

theorem fillAux_length_le (w r : List Nat) (h : r.length ≤ MAX_CONCURRENT) :
    (fillAux w r).2.length ≤ MAX_CONCURRENT := by
  induction w generalizing r with
  | nil => simpa [fillAux] using h
  | cons i rest ih =>
    simp only [fillAux]
    split
    · exact ih _ (by simpa using ‹r.length < MAX_CONCURRENT›)
    · simpa using h

theorem fillAux_slide (w r : List Nat) (h : r.length ≤ MAX_CONCURRENT) :
    (fillAux w r).1 ≠ [] → (fillAux w r).2.length = MAX_CONCURRENT := by
  induction w generalizing r with
  | nil => simp [fillAux]
  | cons i rest ih =>
    simp only [fillAux]
    split
    · exact ih _ (by simpa using ‹r.length < MAX_CONCURRENT›)
    · intro _; show r.length = MAX_CONCURRENT; omega

theorem fillAux_sum (w r : List Nat) :
    (fillAux w r).1.length + (fillAux w r).2.length = w.length + r.length := by
  induction w generalizing r with
  | nil => simp [fillAux]
  | cons i rest ih =>
    simp only [fillAux]
    split
    · have := ih (r ++ [i]); simp at this; simp; omega
    · simp

theorem fillAux_mem (w r : List Nat) (x : Nat) :
    (x ∈ (fillAux w r).1 ∨ x ∈ (fillAux w r).2) ↔ (x ∈ w ∨ x ∈ r) := by
  induction w generalizing r with
  | nil => simp [fillAux]
  | cons i rest ih =>
    simp only [fillAux]
    split
    · rw [ih (r ++ [i])]; simp; tauto
    · simp

theorem fill_waiting_running (st : AnSt) :
    (fill st).waiting = (fillAux st.waiting st.running).1 ∧
    (fill st).running = (fillAux st.waiting st.running).2 := by
  simp [fill]

@[simp] theorem fill_waiting (st : AnSt) :
    (fill st).waiting = (fillAux st.waiting st.running).1 := rfl
@[simp] theorem fill_running (st : AnSt) :
    (fill st).running = (fillAux st.waiting st.running).2 := rfl
@[simp] theorem fill_results (st : AnSt) : (fill st).results = st.results := rfl
@[simp] theorem fill_count (st : AnSt) : (fill st).count = st.count := rfl
@[simp] theorem fill_err (st : AnSt) : (fill st).err = st.err := rfl
@[simp] theorem fill_catchStage (st : AnSt) : (fill st).catchStage = st.catchStage := rfl
@[simp] theorem fill_finished (st : AnSt) : (fill st).finished = st.finished := rfl
@[simp] theorem fill_trace (st : AnSt) : (fill st).trace = st.trace := rfl
@[simp] theorem fill_dels (st : AnSt) : (fill st).dels = st.dels := rfl

/-- Membership survives removing a different element by position. -/
theorem mem_eraseIdx_of_mem_ne {l : List Nat} {k : Nat} {idx x : Nat}
    (hget : l.get? k = some idx) (hx : x ∈ l) (hne : x ≠ idx) :
    x ∈ l.eraseIdx k := by
  induction l generalizing k with
  | nil => cases hx
  | cons a as ih =>
    cases k with
    | zero =>
      simp only [List.get?] at hget
      cases hget
      rcases List.mem_cons.mp hx with h | h
      · exact absurd h hne
      · simpa [List.eraseIdx] using h
    | succ k' =>
      simp only [List.get?] at hget
      rcases List.mem_cons.mp hx with h | h
      · simp [List.eraseIdx, h]
      · simp [List.eraseIdx, ih hget h]

theorem mem_of_mem_eraseIdx {l : List Nat} {k x : Nat}
    (h : x ∈ l.eraseIdx k) : x ∈ l := by
  induction l generalizing k with
  | nil => simp [List.eraseIdx] at h
  | cons a as ih =>
    cases k with
    | zero => simp only [List.eraseIdx] at h; exact List.mem_cons_of_mem _ h
    | succ k' =>
      simp only [List.eraseIdx] at h
      rcases List.mem_cons.mp h with h | h
      · simp [h]
      · exact List.mem_cons_of_mem _ (ih h)

theorem percents_append (t1 t2 : List ProgressEvent) :
    percents (t1 ++ t2) = percents t1 ++ percents t2 := by
  simp [percents]

theorem errEvents_append (t1 t2 : List ProgressEvent) :
    errEvents (t1 ++ t2) = errEvents t1 ++ errEvents t2 := by
  simp [errEvents]

theorem compEvents_append (t1 t2 : List ProgressEvent) :
    compEvents (t1 ++ t2) = compEvents t1 ++ compEvents t2 := by
  simp [compEvents]

@[simp] theorem percents_progress (s m : String) (tf : Option Nat) (p : Nat) :
    percents [ProgressEvent.progress s m tf p] = [p] := rfl
@[simp] theorem percents_frameProcessed (m : String) (c t p : Nat) :
    percents [ProgressEvent.frameProcessed m c t p] = [p] := rfl
@[simp] theorem percents_error (m e : String) :
    percents [ProgressEvent.error m e] = [] := rfl
@[simp] theorem percents_complete (m : String) (p : Nat) (r : JobResult) :
    percents [ProgressEvent.complete m p r] = [] := rfl

@[simp] theorem errEvents_progress (s m : String) (tf : Option Nat) (p : Nat) :
    errEvents [ProgressEvent.progress s m tf p] = [] := rfl
@[simp] theorem errEvents_frameProcessed (m : String) (c t p : Nat) :
    errEvents [ProgressEvent.frameProcessed m c t p] = [] := rfl
@[simp] theorem errEvents_error (m e : String) :
    errEvents [ProgressEvent.error m e] = [ProgressEvent.error m e] := rfl
@[simp] theorem errEvents_complete (m : String) (p : Nat) (r : JobResult) :
    errEvents [ProgressEvent.complete m p r] = [] := rfl

@[simp] theorem compEvents_progress (s m : String) (tf : Option Nat) (p : Nat) :
    compEvents [ProgressEvent.progress s m tf p] = [] := rfl
@[simp] theorem compEvents_frameProcessed (m : String) (c t p : Nat) :
    compEvents [ProgressEvent.frameProcessed m c t p] = [] := rfl
@[simp] theorem compEvents_error (m e : String) :
    compEvents [ProgressEvent.error m e] = [] := rfl
@[simp] theorem compEvents_complete (m : String) (p : Nat) (r : JobResult) :
    compEvents [ProgressEvent.complete m p r] = [ProgressEvent.complete m p r] := rfl

/-! ## The concurrency invariant (claim C5) -/

/-- At most `MAX_CONCURRENT` frames are in flight, and while the queue is
nonempty every slot is full (sliding window). -/
def ConcInv (st : AnSt) : Prop :=
  st.running.length ≤ MAX_CONCURRENT ∧
    (st.waiting ≠ [] → st.running.length = MAX_CONCURRENT)

theorem concInv_fill (st : AnSt) (h : st.running.length ≤ MAX_CONCURRENT) :
    ConcInv (fill st) := by
  obtain ⟨hw, hr⟩ := fill_waiting_running st
  constructor
  · rw [hr]; exact fillAux_length_le _ _ h
  · rw [hw, hr]; exact fillAux_slide _ _ h

theorem length_eraseIdx_le (l : List Nat) (k : Nat) :
    (l.eraseIdx k).length ≤ l.length := by
  induction l generalizing k with
  | nil => simp [List.eraseIdx]
  | cons a as ih =>
    cases k with
    | zero => simp [List.eraseIdx]
    | succ k' => simpa [List.eraseIdx] using ih k'

theorem concInv_step (ctx : AnCtx) (st : AnSt) (ch : Choice)
    (h : ConcInv st) : ConcInv (step ctx st ch) := by
  unfold step
  split
  · exact h
  split
  · -- task k
    split
    · exact h
    split
    · exact concInv_fill _ (le_trans (length_eraseIdx_le _ _) h.1)
    · exact concInv_fill _ (le_trans (length_eraseIdx_le _ _) h.1)
  · -- catchAct
    split
    · exact h
    split
    · exact h
    · exact h
    · exact h

theorem concInv_runChoices (ctx : AnCtx) (choices : List Choice) (st : AnSt)
    (h : ConcInv st) : ConcInv (runChoices ctx choices st) := by
  induction choices generalizing st with
  | nil => exact h
  | cons c cs ih => exact ih _ (concInv_step ctx st c h)

theorem concInv_initSt (ctx : AnCtx) (t0 : List ProgressEvent) :
    ConcInv (initSt ctx t0) := by
  unfold initSt
  exact concInv_fill _ (by simp [MAX_CONCURRENT])

/-! ## The main machine invariant -/

/-- Everything the orchestrator-level claims need about a reachable state
of the analysis stage / catch block. -/
structure MInv (ctx : AnCtx) (st : AnSt) : Prop where
  conc : ConcInv st
  resLen : st.results.length = ctx.frames.length
  errEv : errEvents st.trace =
    (match st.err with
     | some e => if st.catchStage = 0 then [] else [ProgressEvent.error e e]
     | none => [])
  stage0 : st.err = none → st.catchStage = 0
  stageLe2 : st.catchStage ≤ 2
  fin : ∀ e, st.finished = some e → st.err = some e ∧ st.catchStage = 2
  noComp : compEvents st.trace = []
  delsEq : st.dels = if st.catchStage ≤ 1 then [] else [ctx.videoUrl]
  idxBound : ∀ i, (i ∈ st.waiting ∨ i ∈ st.running) → i < ctx.frames.length
  resOk : st.err = none → ∀ i, i < ctx.frames.length →
    i ∈ st.waiting ∨ i ∈ st.running ∨
      ∃ v, taskOutcome ctx.frames ctx.fenv i = .ok v ∧ st.results.get? i = some (some v)
  sumBound : st.count + st.waiting.length + st.running.length ≤ ctx.frames.length
  mono : List.Chain' (· ≤ ·) (percents st.trace)
  lastP : (percents st.trace).getLast? =
    some (40 + st.count * 50 / ctx.frames.length)
  fpShape : ∀ m c t p, ProgressEvent.frameProcessed m c t p ∈ st.trace →
    t = ctx.frames.length ∧ p = 40 + c * 50 / ctx.frames.length

/-- One machine step preserves the main invariant. -/
theorem step_MInv (ctx : AnCtx) (st : AnSt) (ch : Choice)
    (h : MInv ctx st) : MInv ctx (step ctx st ch) := by
  unfold step
  split
  · exact h
  rename_i hnotfin
  have hfinnone : st.finished = none := by
    cases hfin : st.finished with
    | none => rfl
    | some e => rw [hfin] at hnotfin; simp at hnotfin
  split
  · -- task k
    rename_i k
    split
    · exact h
    rename_i idx hget
    have hkfin : k < st.running.length := (List.get?_eq_some.mp hget).1
    have hidxmem : idx ∈ st.running := List.get?_mem hget
    have hidxn : idx < ctx.frames.length := h.idxBound idx (Or.inr hidxmem)
    split
    · rename_i r hok
      refine ⟨?_, ?_, ?_, ?_, ?_, ?_, ?_, ?_, ?_, ?_, ?_, ?_, ?_, ?_⟩
      · exact concInv_fill _ (le_trans (length_eraseIdx_le _ _) h.conc.1)
      · simpa [List.length_set] using h.resLen
      · show errEvents (st.trace ++ [_]) = _
        rw [errEvents_append]
        simpa using h.errEv
      · exact h.stage0
      · exact h.stageLe2
      · intro e' h'; rw [hfinnone] at h'; cases h'
      · show compEvents (st.trace ++ [_]) = _
        rw [compEvents_append]
        simpa using h.noComp
      · exact h.delsEq
      · -- idxBound
        intro i hi
        simp only [fill_waiting, fill_running] at hi
        rcases (fillAux_mem _ _ i).mp hi with hiw | hir
        · exact h.idxBound i (Or.inl hiw)
        · exact h.idxBound i (Or.inr (mem_of_mem_eraseIdx hir))
      · -- resOk
        intro herrn i hin
        simp only [fill_waiting, fill_running, fill_results, fill_err] at herrn ⊢
        rcases eq_or_ne i idx with hEq | hNe
        · subst hEq
          refine Or.inr (Or.inr ⟨r, hok, ?_⟩)
          have hil : i < st.results.length := by rw [h.resLen]; exact hidxn
          simp [List.get?_eq_getElem?, List.getElem?_set_self, hil]
        · rcases h.resOk herrn i hin with hiw | hir | ⟨v, hv, hres⟩
          · rcases (fillAux_mem st.waiting (st.running.eraseIdx k) i).mpr
              (Or.inl hiw) with h1 | h2
            · exact Or.inl h1
            · exact Or.inr (Or.inl h2)
          · have : i ∈ st.running.eraseIdx k := mem_eraseIdx_of_mem_ne hget hir hNe
            rcases (fillAux_mem st.waiting (st.running.eraseIdx k) i).mpr
              (Or.inr this) with h1 | h2
            · exact Or.inl h1
            · exact Or.inr (Or.inl h2)
          · refine Or.inr (Or.inr ⟨v, hv, ?_⟩)
            rw [List.get?_eq_getElem?] at hres ⊢
            rw [List.getElem?_set_ne hNe.symm]
            exact hres
      · -- sumBound
        show st.count + 1 + (fillAux st.waiting (st.running.eraseIdx k)).1.length
            + (fillAux st.waiting (st.running.eraseIdx k)).2.length ≤ _
        have hsum := fillAux_sum st.waiting (st.running.eraseIdx k)
        have hlen := List.length_eraseIdx_of_lt hkfin
        have hsb := h.sumBound
        omega
      · -- mono
        show List.Chain' (· ≤ ·) (percents (st.trace ++ [_]))
        rw [percents_append, List.chain'_append]
        refine ⟨h.mono, by simp, ?_⟩
        intro x hx y hy
        rw [h.lastP] at hx
        simp only [Option.mem_def, Option.some_inj] at hx
        simp only [percents_frameProcessed, List.head?_cons, Option.mem_def,
          Option.some_inj] at hy
        subst hx; subst hy
        have : st.count * 50 / ctx.frames.length ≤
            (st.count + 1) * 50 / ctx.frames.length :=
          Nat.div_le_div_right (by omega)
        omega
      · -- lastP
        show (percents (st.trace ++ [_])).getLast? = _
        rw [percents_append]
        simp
      · -- fpShape
        intro m c t p hmem
        show _ ∧ _
        simp only [fill_trace] at hmem
        rw [List.mem_append] at hmem
        rcases hmem with hmem | hmem
        · exact h.fpShape m c t p hmem
        · simp only [List.mem_singleton, ProgressEvent.frameProcessed.injEq] at hmem
          obtain ⟨_, hc, ht, hp⟩ := hmem
          subst hc; subst ht; subst hp
          exact ⟨rfl, rfl⟩
    · rename_i e herr
      refine ⟨?_, ?_, ?_, ?_, ?_, ?_, ?_, ?_, ?_, ?_, ?_, ?_, ?_, ?_⟩
      · exact concInv_fill _ (le_trans (length_eraseIdx_le _ _) h.conc.1)
      · exact h.resLen
      · show errEvents st.trace =
          (if st.catchStage = 0 then []
           else [ProgressEvent.error (st.err.getD e) (st.err.getD e)])
        have he := h.errEv
        cases hst : st.err with
        | none =>
          rw [h.stage0 hst]
          rw [hst] at he
          simpa using he
        | some e0 =>
          rw [hst] at he
          simpa using he
      · intro hcon; simp only [fill_err] at hcon; cases hcon
      · exact h.stageLe2
      · intro e' h'; rw [hfinnone] at h'; cases h'
      · exact h.noComp
      · exact h.delsEq
      · intro i hi
        simp only [fill_waiting, fill_running] at hi
        rcases (fillAux_mem _ _ i).mp hi with hiw | hir
        · exact h.idxBound i (Or.inl hiw)
        · exact h.idxBound i (Or.inr (mem_of_mem_eraseIdx hir))
      · intro herrn
        simp only [fill_err] at herrn
        cases herrn
      · show st.count + (fillAux st.waiting (st.running.eraseIdx k)).1.length
            + (fillAux st.waiting (st.running.eraseIdx k)).2.length ≤ _
        have hsum := fillAux_sum st.waiting (st.running.eraseIdx k)
        have hlen := List.length_eraseIdx_of_lt hkfin
        have hsb := h.sumBound
        omega
      · exact h.mono
      · exact h.lastP
      · exact h.fpShape
  · -- catchAct
    split
    · exact h
    rename_i e herr
    split
    · -- catchStage = 0
      rename_i hstage
      refine ⟨h.conc, h.resLen, ?_, ?_, ?_, ?_, ?_, ?_, h.idxBound, ?_, h.sumBound,
          ?_, ?_, ?_⟩
      · show errEvents (st.trace ++ [ProgressEvent.error e e]) = _
        rw [errEvents_append]
        have he := h.errEv
        rw [herr, hstage] at he
        simp at he
        rw [herr]
        simp [he]
      · intro hcon; rw [show (AnSt.err _) = st.err from rfl, herr] at hcon; cases hcon
      · show (1 : Nat) ≤ 2; omega
      · intro e' h'; rw [show (AnSt.finished _) = st.finished from rfl, hfinnone] at h'
        cases h'
      · show compEvents (st.trace ++ [ProgressEvent.error e e]) = _
        rw [compEvents_append]
        simpa using h.noComp
      · show st.dels = _
        have hd := h.delsEq
        rw [hstage] at hd
        simpa using hd
      · intro hcon; rw [show (AnSt.err _) = st.err from rfl, herr] at hcon; cases hcon
      · show List.Chain' (· ≤ ·) (percents (st.trace ++ [ProgressEvent.error e e]))
        rw [percents_append]
        simpa using h.mono
      · show (percents (st.trace ++ [ProgressEvent.error e e])).getLast? = _
        rw [percents_append]
        simpa using h.lastP
      · intro m c t p hmem
        rw [show (AnSt.trace _) = st.trace ++ [ProgressEvent.error e e] from rfl,
          List.mem_append] at hmem
        rcases hmem with hmem | hmem
        · exact h.fpShape m c t p hmem
        · simp at hmem
    · -- catchStage = 1
      rename_i hstage
      refine ⟨h.conc, h.resLen, ?_, ?_, ?_, ?_, h.noComp, ?_, h.idxBound, ?_,
          h.sumBound, h.mono, h.lastP, h.fpShape⟩
      · show errEvents st.trace = _
        have he := h.errEv
        rw [herr, hstage] at he
        simp at he
        rw [herr]
        simpa using he
      · intro hcon; rw [show (AnSt.err _) = st.err from rfl, herr] at hcon; cases hcon
      · show (2 : Nat) ≤ 2; omega
      · intro e' h'; rw [show (AnSt.finished _) = st.finished from rfl, hfinnone] at h'
        cases h'
      · show st.dels ++ [ctx.videoUrl] = _
        have hd := h.delsEq
        rw [hstage] at hd
        simp at hd
        simp [hd]
      · intro hcon; rw [show (AnSt.err _) = st.err from rfl, herr] at hcon; cases hcon
    · -- catchStage ≥ 2
      rename_i hs0 hs1
      refine ⟨h.conc, h.resLen, ?_, ?_, h.stageLe2, ?_, h.noComp, h.delsEq,
          h.idxBound, ?_, h.sumBound, h.mono, h.lastP, h.fpShape⟩
      · show errEvents st.trace = _
        have he := h.errEv
        rw [herr] at he ⊢
        simpa using he
      · intro hcon; rw [show (AnSt.err _) = st.err from rfl, herr] at hcon; cases hcon
      · intro e' h'
        rw [show (AnSt.finished _) = some e from rfl] at h'
        obtain rfl : e = e' := by cases h'; rfl
        refine ⟨herr, ?_⟩
        show st.catchStage = 2
        have h0 : st.catchStage ≠ 0 := hs0
        have h1 : st.catchStage ≠ 1 := hs1
        have := h.stageLe2
        omega
      · intro hcon; rw [show (AnSt.err _) = st.err from rfl, herr] at hcon; cases hcon

theorem mInv_runChoices (ctx : AnCtx) (choices : List Choice) (st : AnSt)
    (h : MInv ctx st) : MInv ctx (runChoices ctx choices st) := by
  induction choices generalizing st with
  | nil => exact h
  | cons c cs ih => exact ih _ (step_MInv ctx st c h)

theorem runChoices_append (ctx : AnCtx) (l1 l2 : List Choice) (st : AnSt) :
    runChoices ctx (l1 ++ l2) st = runChoices ctx l2 (runChoices ctx l1 st) :=
  List.foldl_append _ _ _ _

/-- Once the workflow body has rethrown, every further event is a no-op. -/
theorem step_id_of_finished (ctx : AnCtx) (st : AnSt) (ch : Choice)
    (h : st.finished.isSome) : step ctx st ch = st := by
  unfold step
  rw [if_pos h]

/-- Task steps never touch `finished`: only the catch block's rethrow ends
the run. -/
theorem step_task_finished (ctx : AnCtx) (st : AnSt) (k : Nat) :
    (step ctx st (Choice.task k)).finished = st.finished := by
  by_cases hf : st.finished.isSome
  · rw [step_id_of_finished ctx st _ hf]
  · cases hg : st.running[k]? with
    | none => simp [step, hf, hg]
    | some idx =>
      cases ho : taskOutcome ctx.frames ctx.fenv idx with
      | ok r => simp [step, hf, hg, ho]
      | error e => simp [step, hf, hg, ho]

/-- A catch-block step leaves the scheduler state and the collected results
untouched: it only writes the error event, records the deletion attempt,
and rethrows. -/
theorem step_catch_keeps (ctx : AnCtx) (st : AnSt) :
    (step ctx st Choice.catchAct).waiting = st.waiting ∧
    (step ctx st Choice.catchAct).running = st.running ∧
    (step ctx st Choice.catchAct).results = st.results ∧
    (step ctx st Choice.catchAct).count = st.count ∧
    (step ctx st Choice.catchAct).err = st.err := by
  by_cases hf : st.finished.isSome
  · rw [step_id_of_finished ctx st _ hf]; exact ⟨rfl, rfl, rfl, rfl, rfl⟩
  · cases he : st.err with
    | none => simp [step, hf, he]
    | some e =>
      cases hs : st.catchStage with
      | zero => simp [step, hf, he, hs]
      | succ s =>
        cases s with
        | zero => simp [step, hf, he, hs]
        | succ s2 => simp [step, hf, he, hs]

theorem runChoices_nil (ctx : AnCtx) (st : AnSt) : runChoices ctx [] st = st := rfl

theorem runChoices_cons (ctx : AnCtx) (c : Choice) (cs : List Choice) (st : AnSt) :
    runChoices ctx (c :: cs) st = runChoices ctx cs (step ctx st c) := rfl

theorem runChoices_catch_keeps (ctx : AnCtx) (m : Nat) (st : AnSt) :
    (runChoices ctx (List.replicate m Choice.catchAct) st).waiting = st.waiting ∧
    (runChoices ctx (List.replicate m Choice.catchAct) st).running = st.running ∧
    (runChoices ctx (List.replicate m Choice.catchAct) st).results = st.results ∧
    (runChoices ctx (List.replicate m Choice.catchAct) st).count = st.count ∧
    (runChoices ctx (List.replicate m Choice.catchAct) st).err = st.err := by
  induction m generalizing st with
  | zero => exact ⟨rfl, rfl, rfl, rfl, rfl⟩
  | succ m ih =>
    rw [List.replicate_succ, runChoices_cons]
    obtain ⟨w1, r1, s1, c1, e1⟩ := step_catch_keeps ctx st
    obtain ⟨w2, r2, s2, c2, e2⟩ := ih (step ctx st Choice.catchAct)
    exact ⟨w2.trans w1, r2.trans r1, s2.trans s1, c2.trans c1, e2.trans e1⟩

theorem runChoices_tasks_finished (ctx : AnCtx) (m : Nat) (st : AnSt) :
    (runChoices ctx (List.replicate m (Choice.task 0)) st).finished = st.finished := by
  induction m generalizing st with
  | zero => rfl
  | succ m ih =>
    rw [List.replicate_succ, runChoices_cons]
    exact (ih _).trans (step_task_finished ctx st 0)

theorem step_task0_sum (ctx : AnCtx) (st : AnSt) (idx : Nat)
    (hg : st.running[0]? = some idx) (hf : ¬st.finished.isSome = true) :
    (step ctx st (Choice.task 0)).waiting.length +
      (step ctx st (Choice.task 0)).running.length + 1 =
    st.waiting.length + st.running.length := by
  have hk : 0 < st.running.length := by
    cases hrn : st.running with
    | nil => rw [hrn] at hg; cases hg
    | cons a l => simp [hrn]
  have hsum := fillAux_sum st.waiting (st.running.eraseIdx 0)
  have hlen := List.length_eraseIdx_of_lt hk
  cases ho : taskOutcome ctx.frames ctx.fenv idx with
  | ok r =>
    simp only [step, hf, if_false, Bool.false_eq_true, List.get?_eq_getElem?, hg, ho]
    simp only [fill_waiting, fill_running]
    omega
  | error e =>
    simp only [step, hf, if_false, Bool.false_eq_true, List.get?_eq_getElem?, hg, ho]
    simp only [fill_waiting, fill_running]
    omega

theorem tasks_flush (ctx : AnCtx) :
    ∀ (m : Nat) (st : AnSt), MInv ctx st → st.finished = none →
      st.waiting.length + st.running.length ≤ m →
      (runChoices ctx (List.replicate m (Choice.task 0)) st).waiting = [] ∧
      (runChoices ctx (List.replicate m (Choice.task 0)) st).running = [] := by
  intro m
  induction m with
  | zero =>
    intro st h hfin hsum
    have hw : st.waiting = [] := List.length_eq_zero.mp (by omega)
    have hr : st.running = [] := List.length_eq_zero.mp (by omega)
    rw [List.replicate_zero, runChoices_nil]
    exact ⟨hw, hr⟩
  | succ m ih =>
    intro st h hfin hsum
    have hf : ¬st.finished.isSome = true := by rw [hfin]; simp
    rw [List.replicate_succ, runChoices_cons]
    cases hr : st.running with
    | nil =>
      have hw : st.waiting = [] := by
        by_contra hne
        have := h.conc.2 hne
        rw [hr] at this
        simp [MAX_CONCURRENT] at this
      have hstep : step ctx st (Choice.task 0) = st := by
        simp [step, hf, List.get?_eq_getElem?, hr]
      rw [hstep]
      exact ih st h hfin (by rw [hw, hr]; simp)
    | cons idx rest =>
      have hg : st.running[0]? = some idx := by rw [hr]; simp
      have hsum' := step_task0_sum ctx st idx hg hf
      have hfin' : (step ctx st (Choice.task 0)).finished = none :=
        (step_task_finished ctx st 0).trans hfin
      exact ih _ (step_MInv ctx st _ h) hfin' (by omega)

theorem catch_stage0 (ctx : AnCtx) (st : AnSt) (e : String)
    (hf : ¬st.finished.isSome = true) (herr : st.err = some e)
    (hs : st.catchStage = 0) :
    step ctx st Choice.catchAct =
      { st with trace := st.trace ++ [ProgressEvent.error e e], catchStage := 1 } := by
  simp [step, hf, herr, hs]

theorem catch_stage1 (ctx : AnCtx) (st : AnSt) (e : String)
    (hf : ¬st.finished.isSome = true) (herr : st.err = some e)
    (hs : st.catchStage = 1) :
    step ctx st Choice.catchAct =
      { st with dels := st.dels ++ [ctx.videoUrl], catchStage := 2 } := by
  simp [step, hf, herr, hs]

theorem catch_stage2 (ctx : AnCtx) (st : AnSt) (e : String) (s : Nat)
    (hf : ¬st.finished.isSome = true) (herr : st.err = some e)
    (hs : st.catchStage = s + 2) :
    step ctx st Choice.catchAct = { st with finished := some e } := by
  simp [step, hf, herr, hs]

theorem catch_flush (ctx : AnCtx) (st : AnSt) (e : String) (herr : st.err = some e) :
    (runChoices ctx [Choice.catchAct, Choice.catchAct, Choice.catchAct] st).finished.isSome = true := by
  by_cases hf : st.finished.isSome = true
  · rw [runChoices_cons, step_id_of_finished ctx st _ hf,
        runChoices_cons, step_id_of_finished ctx st _ hf,
        runChoices_cons, step_id_of_finished ctx st _ hf, runChoices_nil]
    exact hf
  · cases hs : st.catchStage with
    | zero =>
      rw [runChoices_cons, catch_stage0 ctx st e hf herr hs]
      set st1 := { st with trace := st.trace ++ [ProgressEvent.error e e], catchStage := 1 } with hst1
      have hf1 : ¬st1.finished.isSome = true := hf
      rw [runChoices_cons, catch_stage1 ctx st1 e hf1 herr rfl]
      set st2 := { st1 with dels := st1.dels ++ [ctx.videoUrl], catchStage := 2 } with hst2
      have hf2 : ¬st2.finished.isSome = true := hf
      rw [runChoices_cons, catch_stage2 ctx st2 e 0 hf2 herr rfl, runChoices_nil]
      rfl
    | succ s =>
      cases s with
      | zero =>
        rw [runChoices_cons, catch_stage1 ctx st e hf herr hs]
        set st2 := { st with dels := st.dels ++ [ctx.videoUrl], catchStage := 2 } with hst2
        have hf2 : ¬st2.finished.isSome = true := hf
        rw [runChoices_cons, catch_stage2 ctx st2 e 0 hf2 herr rfl]
        set st3 := { st2 with finished := some e } with hst3
        have hf3 : st3.finished.isSome = true := rfl
        rw [runChoices_cons, step_id_of_finished ctx st3 _ hf3, runChoices_nil]
        exact hf3
      | succ s2 =>
        rw [runChoices_cons, catch_stage2 ctx st e s2 hf herr hs]
        set st3 := { st with finished := some e } with hst3
        have hf3 : st3.finished.isSome = true := rfl
        rw [runChoices_cons, step_id_of_finished ctx st3 _ hf3,
            runChoices_cons, step_id_of_finished ctx st3 _ hf3, runChoices_nil]
        exact hf3

theorem mInv_initSt (ctx : AnCtx) (t0 : List ProgressEvent)
    (hp : percents t0 = [5, 20, 40])
    (he : errEvents t0 = []) (hc : compEvents t0 = [])
    (hfp : ∀ m c t p, ProgressEvent.frameProcessed m c t p ∉ t0) :
    MInv ctx (initSt ctx t0) := by
  have hw : (initSt ctx t0).waiting = (fillAux (List.range ctx.frames.length) []).1 := rfl
  have hr : (initSt ctx t0).running = (fillAux (List.range ctx.frames.length) []).2 := rfl
  refine ⟨concInv_initSt ctx t0, ?_, ?_, ?_, ?_, ?_, ?_, ?_, ?_, ?_, ?_, ?_, ?_, ?_⟩
  · show (List.replicate ctx.frames.length (none : Option (Option Incident))).length = _
    simp
  · show errEvents t0 = _
    exact he
  · intro _; rfl
  · show (0 : Nat) ≤ 2; omega
  · intro e' h'
    exact absurd h' (by simp [initSt])
  · exact hc
  · show ([] : List String) = _
    rfl
  · intro i hi
    rw [hw, hr] at hi
    rcases (fillAux_mem _ _ i).mp hi with h1 | h1
    · exact List.mem_range.mp h1
    · simp at h1
  · intro _ i hin
    rw [hw, hr]
    rcases (fillAux_mem (List.range ctx.frames.length) [] i).mpr
        (Or.inl (List.mem_range.mpr hin)) with h1 | h1
    · exact Or.inl h1
    · exact Or.inr (Or.inl h1)
  · show 0 + (fillAux (List.range ctx.frames.length) []).1.length
        + (fillAux (List.range ctx.frames.length) []).2.length ≤ _
    have := fillAux_sum (List.range ctx.frames.length) []
    simp at this
    omega
  · show List.Chain' (· ≤ ·) (percents t0)
    rw [hp]
    simp [List.chain'_cons]
  · show (percents t0).getLast? = some (40 + 0 * 50 / ctx.frames.length)
    rw [hp]
    simp
  · intro m c t p hmem
    exact absurd hmem (hfp m c t p)

theorem runChoices_id_of_finished (ctx : AnCtx) (l : List Choice) (st : AnSt)
    (h : st.finished.isSome = true) : runChoices ctx l st = st := by
  induction l with
  | nil => rfl
  | cons c cs ih => rw [runChoices_cons, step_id_of_finished ctx st c h, ih]

theorem runAnalysis_final (ctx : AnCtx) (choices : List Choice)
    (t0 : List ProgressEvent) (hM : MInv ctx (initSt ctx t0)) :
    MInv ctx (runAnalysis ctx choices t0) ∧
    ((runAnalysis ctx choices t0).finished = none →
      (runAnalysis ctx choices t0).err = none ∧
      (runAnalysis ctx choices t0).waiting = [] ∧
      (runAnalysis ctx choices t0).running = []) := by
  have hdec : runAnalysis ctx choices t0 =
      runChoices ctx [Choice.catchAct, Choice.catchAct, Choice.catchAct]
        (runChoices ctx (List.replicate ctx.frames.length (Choice.task 0))
          (runChoices ctx choices (initSt ctx t0))) := by
    unfold runAnalysis flushChoices
    rw [runChoices_append, runChoices_append]
  set stM := runChoices ctx choices (initSt ctx t0) with hstM
  set stB := runChoices ctx (List.replicate ctx.frames.length (Choice.task 0)) stM with hstB
  set stF := runChoices ctx [Choice.catchAct, Choice.catchAct, Choice.catchAct] stB with hstF
  have hMM : MInv ctx stM := mInv_runChoices _ _ _ hM
  have hMB : MInv ctx stB := mInv_runChoices _ _ _ hMM
  have hMF : MInv ctx stF := mInv_runChoices _ _ _ hMB
  have hfinB : stB.finished = stM.finished := runChoices_tasks_finished _ _ _
  constructor
  · rw [hdec]; exact hMF
  · intro hfin
    rw [hdec] at hfin
    -- the catch block cannot have a pending rejection, else it would have rethrown
    have herrB : stB.err = none := by
      cases hBerr : stB.err with
      | none => rfl
      | some e =>
        have := catch_flush ctx stB e hBerr
        rw [← hstF] at this
        rw [hfin] at this
        simp at this
    have hkeep := runChoices_catch_keeps ctx 3 stB
    have h3 : List.replicate 3 Choice.catchAct =
        [Choice.catchAct, Choice.catchAct, Choice.catchAct] := rfl
    rw [h3, ← hstF] at hkeep
    -- tasks have all drained, because the run did not end early
    have hfinM : stM.finished = none := by
      cases hMfin : stM.finished with
      | none => rfl
      | some e =>
        have hBsome : stB.finished.isSome = true := by rw [hfinB, hMfin]; rfl
        have := runChoices_id_of_finished ctx
          [Choice.catchAct, Choice.catchAct, Choice.catchAct] stB hBsome
        rw [← hstF] at this
        rw [this] at hfin
        rw [hfin] at hBsome
        simp at hBsome
    have hdrain := tasks_flush ctx ctx.frames.length stM hMM hfinM
      (by have := hMM.sumBound; omega)
    rw [← hstB] at hdrain
    refine ⟨?_, ?_, ?_⟩
    · rw [hdec]
      rw [hkeep.2.2.2.2]
      exact herrB
    · rw [hdec, hkeep.1]
      exact hdrain.1
    · rw [hdec, hkeep.2.1]
      exact hdrain.2

/-! ## The canonical (schedule-independent) incident list -/

/-- The per-index result `Promise.all` collects for frame `i` when its task
settles successfully. -/
def canonicalResult (frames : List Frame) (fenv : Nat → FrameEnv) (i : Nat) :
    Option Incident :=
  match frames.get? i with
  | some f =>
    match processOneFrame f (fenv i) with
    | .ok v => v
    | .error _ => none
  | none => none

/-- `allResults.filter(incident => incident !== null)` keyed by original
frame index. -/
def canonicalIncidents (frames : List Frame) (fenv : Nat → FrameEnv) :
    List Incident :=
  (List.range frames.length).filterMap (canonicalResult frames fenv)

theorem canonicalResult_of_ok {frames : List Frame} {fenv : Nat → FrameEnv}
    {i : Nat} {v : Option Incident} (h : taskOutcome frames fenv i = .ok v) :
    canonicalResult frames fenv i = v := by
  unfold canonicalResult
  unfold taskOutcome at h
  cases hg : frames.get? i with
  | none =>
    rw [hg] at h
    simp at h
    simp [h]
  | some f =>
    rw [hg] at h
    simp at h
    simp [h]

theorem framesOf_timestamp :
    ∀ (files : List String) (s i : Nat) (f : Frame),
      (framesOf s files).get? i = some f → f.timestamp = (s + i) * 5 := by
  intro files
  induction files with
  | nil => intro s i f h; simp [framesOf] at h
  | cons a l ih =>
    intro s i f h
    cases i with
    | zero =>
      simp [framesOf] at h
      cases h
      simp
    | succ i2 =>
      simp only [framesOf, List.get?] at h
      have := ih (s + 1) i2 f h
      rw [this]
      ring

theorem processOneFrame_timestamp {f : Frame} {fe : FrameEnv} {inc : Incident}
    (h : processOneFrame f fe = .ok (some inc)) : inc.timestamp = f.timestamp := by
  unfold processOneFrame at h
  by_cases hf : (moderateFrame fe).isFlagged
  · rw [if_pos hf] at h
    cases hs : fe.screenshotUpload with
    | error e => rw [hs] at h; cases h
    | ok url => rw [hs] at h; cases h; rfl
  · rw [if_neg hf] at h; cases h

theorem canonicalResult_timestamp {frames : List Frame} {fenv : Nat → FrameEnv}
    {i : Nat} {inc : Incident}
    (hts : ∀ j f, frames.get? j = some f → f.timestamp = j * 5)
    (h : canonicalResult frames fenv i = some inc) : inc.timestamp = i * 5 := by
  unfold canonicalResult at h
  cases hg : frames.get? i with
  | none => rw [hg] at h; simp at h
  | some f =>
    rw [hg] at h
    simp only [] at h
    cases hp : processOneFrame f (fenv i) with
    | error e => rw [hp] at h; simp at h
    | ok v =>
      rw [hp] at h
      simp only [] at h
      cases v with
      | none => simp at h
      | some inc2 =>
        simp at h
        cases h
        rw [processOneFrame_timestamp hp]
        exact hts i f hg

theorem canonicalIncidents_sorted (frames : List Frame) (fenv : Nat → FrameEnv)
    (hts : ∀ j f, frames.get? j = some f → f.timestamp = j * 5) :
    (canonicalIncidents frames fenv).Pairwise
      (fun a b => a.timestamp < b.timestamp) := by
  unfold canonicalIncidents
  refine List.Pairwise.filterMap (canonicalResult frames fenv) ?_
    (List.pairwise_lt_range _)
  intro i j hij b hb b' hb'
  rw [canonicalResult_timestamp hts (Option.mem_def.mp hb),
      canonicalResult_timestamp hts (Option.mem_def.mp hb')]
  omega

/-- When the job reaches the success branch, the collected results are the
canonical per-index results, so the incident list is schedule-independent. -/
theorem results_characterization (ctx : AnCtx) (st : AnSt) (hM : MInv ctx st)
    (hw : st.waiting = []) (hr : st.running = []) (he : st.err = none) :
    (st.results.filterMap id).filterMap id =
      canonicalIncidents ctx.frames ctx.fenv := by
  have hres : st.results = (List.range ctx.frames.length).map
      (fun i => some (canonicalResult ctx.frames ctx.fenv i)) := by
    apply List.ext_get?
    intro i
    by_cases hin : i < ctx.frames.length
    · rcases hM.resOk he i hin with hiw | hir | ⟨v, hok, hget⟩
      · rw [hw] at hiw; cases hiw
      · rw [hr] at hir; cases hir
      · rw [hget, List.get?_eq_getElem?, List.getElem?_map,
          List.getElem?_range hin]
        simp [canonicalResult_of_ok hok]
    · have h1 : st.results.get? i = none := by
        rw [List.get?_eq_getElem?]
        apply List.getElem?_eq_none
        rw [hM.resLen]; omega
      have h2 : ((List.range ctx.frames.length).map
          (fun i => some (canonicalResult ctx.frames ctx.fenv i))).get? i = none := by
        rw [List.get?_eq_getElem?]
        apply List.getElem?_eq_none
        simp; omega
      rw [h1, h2]
  rw [hres]
  rw [List.filterMap_map]
  have h1 : (List.filterMap (id ∘ fun i => some (canonicalResult ctx.frames ctx.fenv i))
      (List.range ctx.frames.length)) =
      (List.range ctx.frames.length).map (canonicalResult ctx.frames ctx.fenv) :=
    List.filterMap_eq_map_iff_forall_eq_some.mpr fun x => congrFun rfl
  rw [h1, List.filterMap_map]
  rfl

/-! ## When every frame task succeeds, the job cannot abort -/

theorem step_err_none (ctx : AnCtx) (st : AnSt) (ch : Choice) (hM : MInv ctx st)
    (hall : ∀ i, i < ctx.frames.length →
      ∃ v, taskOutcome ctx.frames ctx.fenv i = .ok v)
    (he : st.err = none) : (step ctx st ch).err = none := by
  cases ch with
  | catchAct => exact (step_catch_keeps ctx st).2.2.2.2.trans he
  | task k =>
    by_cases hf : st.finished.isSome = true
    · rw [step_id_of_finished ctx st _ hf]; exact he
    · cases hg : st.running[k]? with
      | none => simp [step, hf, List.get?_eq_getElem?, hg]; exact he
      | some idx =>
        have hget : st.running.get? k = some idx := by
          rw [List.get?_eq_getElem?]; exact hg
        have hidxn : idx < ctx.frames.length :=
          hM.idxBound idx (Or.inr (List.get?_mem hget))
        obtain ⟨v, hv⟩ := hall idx hidxn
        simp [step, hf, List.get?_eq_getElem?, hg, hv]
        exact he

theorem runChoices_err_none (ctx : AnCtx) (choices : List Choice) (st : AnSt)
    (hM : MInv ctx st)
    (hall : ∀ i, i < ctx.frames.length →
      ∃ v, taskOutcome ctx.frames ctx.fenv i = .ok v)
    (he : st.err = none) : (runChoices ctx choices st).err = none := by
  induction choices generalizing st with
  | nil => exact he
  | cons c cs ih =>
    rw [runChoices_cons]
    exact ih _ (step_MInv ctx st c hM) (step_err_none ctx st c hM hall he)

/-! ## The orchestrator, branch by branch -/

/-- Events already on the stream when the analysis stage starts. -/
def preTrace (n : Nat) : List ProgressEvent :=
  [ProgressEvent.progress "started" "Starting video processing" none 5,
   ProgressEvent.progress "uploaded" "Video uploaded to storage" none 20,
   ProgressEvent.progress "extracted" ("Extracted " ++ toString n ++ " frames")
     (some n) 40]

def mkCtx (env : JobEnv) (url : String) (frames : List Frame) : AnCtx :=
  { frames := frames, fenv := env.frameEnv, videoUrl := url }

theorem mInv_start (env : JobEnv) (url : String) (frames : List Frame) :
    MInv (mkCtx env url frames)
      (initSt (mkCtx env url frames) (preTrace frames.length)) := by
  apply mInv_initSt
  · rfl
  · rfl
  · rfl
  · intro m c t p
    simp [preTrace]

theorem pvu_upload_err (env : JobEnv) (choices : List Choice) (e : String)
    (hu : env.uploadVideo = .error e) :
    processVideoUpload env choices =
      { trace := [ProgressEvent.progress "started" "Starting video processing" none 5,
                  ProgressEvent.error e e],
        outcome := .error e, dels := [] } := by
  simp [processVideoUpload, hu]

theorem pvu_extract_err (env : JobEnv) (choices : List Choice) (url e : String)
    (hu : env.uploadVideo = .ok url)
    (hx : (extractFrames env.extract).1 = .error e) :
    processVideoUpload env choices =
      { trace := [ProgressEvent.progress "started" "Starting video processing" none 5,
                  ProgressEvent.progress "uploaded" "Video uploaded to storage" none 20,
                  ProgressEvent.error e e],
        outcome := .error e, dels := [url] } := by
  simp [processVideoUpload, hu, hx]

theorem pvu_analysis_err (env : JobEnv) (choices : List Choice) (url : String)
    (frames : List Frame) (e : String)
    (hu : env.uploadVideo = .ok url)
    (hx : (extractFrames env.extract).1 = .ok frames)
    (hf : (runAnalysis (mkCtx env url frames) choices
            (preTrace frames.length)).finished = some e) :
    processVideoUpload env choices =
      { trace := (runAnalysis (mkCtx env url frames) choices
                   (preTrace frames.length)).trace,
        outcome := .error e,
        dels := (runAnalysis (mkCtx env url frames) choices
                  (preTrace frames.length)).dels } := by
  simp only [processVideoUpload, hu, hx, mkCtx, preTrace] at hf ⊢
  simp at hf ⊢
  rw [hf]

theorem pvu_analysis_ok (env : JobEnv) (choices : List Choice) (url : String)
    (frames : List Frame)
    (hu : env.uploadVideo = .ok url)
    (hx : (extractFrames env.extract).1 = .ok frames)
    (hf : (runAnalysis (mkCtx env url frames) choices
            (preTrace frames.length)).finished = none) :
    processVideoUpload env choices =
      { trace := (runAnalysis (mkCtx env url frames) choices
                   (preTrace frames.length)).trace ++
                 [ProgressEvent.progress "cleanup" "Cleaning up temporary files" none 95,
                  ProgressEvent.complete "Processing complete" 100
                    { incidents := (((runAnalysis (mkCtx env url frames) choices
                          (preTrace frames.length)).results.filterMap id).filterMap id),
                      totalFrames := frames.length,
                      processedAt := env.processedAt,
                      metadata := { filename := env.filename } }],
        outcome := .ok
          { incidents := (((runAnalysis (mkCtx env url frames) choices
                (preTrace frames.length)).results.filterMap id).filterMap id),
            totalFrames := frames.length,
            processedAt := env.processedAt,
            metadata := { filename := env.filename } },
        dels := (runAnalysis (mkCtx env url frames) choices
                  (preTrace frames.length)).dels ++ [url] } := by
  simp only [processVideoUpload, hu, hx, mkCtx, preTrace] at hf ⊢
  simp at hf ⊢
  rw [hf]

/-! ## Additional trace computation lemmas -/

@[simp] theorem errEvents_nil : errEvents [] = [] := rfl
@[simp] theorem errEvents_cons_progress (s m : String) (tf : Option Nat) (p : Nat)
    (t : List ProgressEvent) :
    errEvents (ProgressEvent.progress s m tf p :: t) = errEvents t := rfl
@[simp] theorem errEvents_cons_frameProcessed (m : String) (c tt p : Nat)
    (t : List ProgressEvent) :
    errEvents (ProgressEvent.frameProcessed m c tt p :: t) = errEvents t := rfl
@[simp] theorem errEvents_cons_complete (m : String) (p : Nat) (r : JobResult)
    (t : List ProgressEvent) :
    errEvents (ProgressEvent.complete m p r :: t) = errEvents t := rfl
@[simp] theorem errEvents_cons_error (m e : String) (t : List ProgressEvent) :
    errEvents (ProgressEvent.error m e :: t) =
      ProgressEvent.error m e :: errEvents t := rfl

@[simp] theorem compEvents_nil : compEvents [] = [] := rfl
@[simp] theorem compEvents_cons_progress (s m : String) (tf : Option Nat) (p : Nat)
    (t : List ProgressEvent) :
    compEvents (ProgressEvent.progress s m tf p :: t) = compEvents t := rfl
@[simp] theorem compEvents_cons_frameProcessed (m : String) (c tt p : Nat)
    (t : List ProgressEvent) :
    compEvents (ProgressEvent.frameProcessed m c tt p :: t) = compEvents t := rfl
@[simp] theorem compEvents_cons_error (m e : String) (t : List ProgressEvent) :
    compEvents (ProgressEvent.error m e :: t) = compEvents t := rfl
@[simp] theorem compEvents_cons_complete (m : String) (p : Nat) (r : JobResult)
    (t : List ProgressEvent) :
    compEvents (ProgressEvent.complete m p r :: t) =
      ProgressEvent.complete m p r :: compEvents t := rfl

@[simp] theorem percents_nil : percents [] = [] := rfl
@[simp] theorem percents_cons_progress (s m : String) (tf : Option Nat) (p : Nat)
    (t : List ProgressEvent) :
    percents (ProgressEvent.progress s m tf p :: t) = p :: percents t := rfl
@[simp] theorem percents_cons_frameProcessed (m : String) (c tt p : Nat)
    (t : List ProgressEvent) :
    percents (ProgressEvent.frameProcessed m c tt p :: t) = p :: percents t := rfl
@[simp] theorem percents_cons_error (m e : String) (t : List ProgressEvent) :
    percents (ProgressEvent.error m e :: t) = percents t := rfl
@[simp] theorem percents_cons_complete (m : String) (p : Nat) (r : JobResult)
    (t : List ProgressEvent) :
    percents (ProgressEvent.complete m p r :: t) = percents t := rfl

/-- The analysis-stage share of the percent never exceeds 95. -/
theorem lastP_le_ninety (ctx : AnCtx) (st : AnSt) (hM : MInv ctx st) :
    40 + st.count * 50 / ctx.frames.length ≤ 90 := by
  have hsb := hM.sumBound
  rcases Nat.eq_zero_or_pos ctx.frames.length with hn | hn
  · rw [hn]
    have : st.count = 0 := by omega
    rw [this]
    simp
  · have hcle : st.count ≤ ctx.frames.length := by omega
    have h1 : st.count * 50 / ctx.frames.length ≤
        ctx.frames.length * 50 / ctx.frames.length :=
      Nat.div_le_div_right (by omega)
    have h2 : ctx.frames.length * 50 / ctx.frames.length = 50 :=
      Nat.mul_div_cancel_left 50 hn
    omega

/-! ## C1: terminal events (amended) -/

/-- C1 (amended): every run emits exactly one terminal event — one
`complete` (after all other events, as the last event) on the success path,
or one `error` event on any exception path.  The claim's further assertion
that on an exception no event follows the error event is refuted by
`c1_counterexample`: frames still in flight when `Promise.all` rejects keep
running and keep writing `frameProcessed` events, which may land after the
error event. -/
theorem c1_one_terminal_event (env : JobEnv) (choices : List Choice) :
    (∀ r, (processVideoUpload env choices).outcome = Except.ok r →
      errEvents (processVideoUpload env choices).trace = [] ∧
      compEvents (processVideoUpload env choices).trace =
        [ProgressEvent.complete "Processing complete" 100 r] ∧
      (processVideoUpload env choices).trace.getLast? =
        some (ProgressEvent.complete "Processing complete" 100 r)) ∧
    (∀ e, (processVideoUpload env choices).outcome = Except.error e →
      errEvents (processVideoUpload env choices).trace =
        [ProgressEvent.error e e] ∧
      compEvents (processVideoUpload env choices).trace = []) := by
  cases hu : env.uploadVideo with
  | error e0 =>
    rw [pvu_upload_err env choices e0 hu]
    constructor
    · intro r h; cases h
    · intro e h
      cases h
      constructor <;> rfl
  | ok url =>
    cases hx : (extractFrames env.extract).1 with
    | error e0 =>
      rw [pvu_extract_err env choices url e0 hu hx]
      constructor
      · intro r h; cases h
      · intro e h
        cases h
        constructor <;> rfl
    | ok frames =>
      have hstart := mInv_start env url frames
      obtain ⟨hMF, hdone⟩ := runAnalysis_final (mkCtx env url frames) choices
        (preTrace frames.length) hstart
      cases hf : (runAnalysis (mkCtx env url frames) choices
          (preTrace frames.length)).finished with
      | some e0 =>
        rw [pvu_analysis_err env choices url frames e0 hu hx hf]
        constructor
        · intro r h; cases h
        · intro e h
          cases h
          obtain ⟨herr, hstage⟩ := hMF.fin e0 hf
          have he := hMF.errEv
          rw [herr, hstage] at he
          simp at he
          exact ⟨he, hMF.noComp⟩
      | none =>
        obtain ⟨herrn, hwn, hrn⟩ := hdone hf
        rw [pvu_analysis_ok env choices url frames hu hx hf]
        have heE := hMF.errEv
        rw [herrn] at heE
        constructor
        · intro r h
          cases h
          refine ⟨?_, ?_, ?_⟩
          · rw [errEvents_append, heE]
            rfl
          · rw [compEvents_append, hMF.noComp]
            rfl
          · rw [show ∀ (l : List ProgressEvent) (a b : ProgressEvent),
                l ++ [a, b] = (l ++ [a]) ++ [b] from fun l a b => by simp]
            simp
        · intro e h; cases h

/-! ## C4: percent monotonicity -/

/-- C4: across every run, the `percent` carried by the progress and
frameProcessed events is non-decreasing in emission order, and every
frameProcessed event carries `percent = 40 + floor(current * 50 / total)`
with `total` the extracted frame count. -/
theorem c4_percent_monotone (env : JobEnv) (choices : List Choice) :
    List.Chain' (· ≤ ·) (percents (processVideoUpload env choices).trace) ∧
    (∀ m c t p, ProgressEvent.frameProcessed m c t p ∈
        (processVideoUpload env choices).trace →
      p = 40 + c * 50 / t) := by
  cases hu : env.uploadVideo with
  | error e0 =>
    rw [pvu_upload_err env choices e0 hu]
    constructor
    · simp
    · intro m c t p hmem
      simp at hmem
  | ok url =>
    cases hx : (extractFrames env.extract).1 with
    | error e0 =>
      rw [pvu_extract_err env choices url e0 hu hx]
      constructor
      · simp
      · intro m c t p hmem
        simp at hmem
    | ok frames =>
      have hstart := mInv_start env url frames
      obtain ⟨hMF, hdone⟩ := runAnalysis_final (mkCtx env url frames) choices
        (preTrace frames.length) hstart
      have hshape : ∀ m c t p, ProgressEvent.frameProcessed m c t p ∈
          (runAnalysis (mkCtx env url frames) choices
            (preTrace frames.length)).trace → p = 40 + c * 50 / t := by
        intro m c t p hmem
        obtain ⟨ht, hp⟩ := hMF.fpShape m c t p hmem
        rw [ht]
        exact hp
      cases hf : (runAnalysis (mkCtx env url frames) choices
          (preTrace frames.length)).finished with
      | some e0 =>
        rw [pvu_analysis_err env choices url frames e0 hu hx hf]
        exact ⟨hMF.mono, hshape⟩
      | none =>
        rw [pvu_analysis_ok env choices url frames hu hx hf]
        constructor
        · rw [percents_append, List.chain'_append]
          refine ⟨hMF.mono, by simp, ?_⟩
          intro x hx2 y hy
          rw [hMF.lastP] at hx2
          simp only [Option.mem_def, Option.some_inj] at hx2
          simp only [percents_cons_progress, percents_cons_complete, percents_nil,
            List.head?_cons, Option.mem_def, Option.some_inj] at hy
          subst hx2; subst hy
          have := lastP_le_ninety _ _ hMF
          omega
        · intro m c t p hmem
          rw [List.mem_append] at hmem
          rcases hmem with hmem | hmem
          · exact hshape m c t p hmem
          · simp at hmem

/-! ## C5: bounded concurrency -/

/-- C5: the limiter is configured with `MAX_CONCURRENT = 10`; in every state
reachable under any schedule, at most `MAX_CONCURRENT` frame analyses are in
flight, and while frames are still queued every slot is occupied — as soon
as one analysis settles the next queued frame is admitted (sliding window,
not fixed batches). -/
theorem c5_concurrency_ceiling (ctx : AnCtx) (trace0 : List ProgressEvent)
    (choices : List Choice) :
    MAX_CONCURRENT = 10 ∧
    (runChoices ctx choices (initSt ctx trace0)).running.length ≤ MAX_CONCURRENT ∧
    ((runChoices ctx choices (initSt ctx trace0)).waiting ≠ [] →
      (runChoices ctx choices (initSt ctx trace0)).running.length = MAX_CONCURRENT) := by
  have h := concInv_runChoices ctx choices _ (concInv_initSt ctx trace0)
  exact ⟨rfl, h.1, h.2⟩

theorem extractFrames_timestamps (env : ExtractEnv) (frames : List Frame)
    (h : (extractFrames env).1 = Except.ok frames) :
    ∀ i f, frames.get? i = some f → f.timestamp = i * 5 := by
  cases hfetch : env.fetchOk with
  | false => unfold extractFrames at h; rw [hfetch] at h; simp at h
  | true =>
    by_cases hsz : env.statSize = env.byteLen
    · cases hff : env.ffmpegOk with
      | false =>
        unfold extractFrames at h; rw [hfetch, hff] at h; simp [hsz] at h
      | true =>
        unfold extractFrames at h; rw [hfetch, hff] at h; simp [hsz] at h
        intro i f hif
        rw [← h] at hif
        have := framesOf_timestamp env.frameFiles 0 i f hif
        simpa using this
    · unfold extractFrames at h; rw [hfetch] at h; simp [hsz] at h

/-! ## C7: deterministic incident ordering -/

/-- C7: whatever the completion order of the concurrent frame analyses, a
job that completes returns the incident list keyed by original frame index
(`Promise.all` preserves submission order; nulls are filtered out), and that
list is strictly sorted by frame timestamp. -/
theorem c7_incidents_deterministic (env : JobEnv) (choices : List Choice)
    (frames : List Frame) (r : JobResult)
    (hx : (extractFrames env.extract).1 = Except.ok frames)
    (hok : (processVideoUpload env choices).outcome = Except.ok r) :
    r.incidents = canonicalIncidents frames env.frameEnv ∧
    r.incidents.Pairwise (fun a b => a.timestamp < b.timestamp) ∧
    r.totalFrames = frames.length := by
  cases hu : env.uploadVideo with
  | error e0 =>
    rw [pvu_upload_err env choices e0 hu] at hok
    cases hok
  | ok url =>
    have hstart := mInv_start env url frames
    obtain ⟨hMF, hdone⟩ := runAnalysis_final (mkCtx env url frames) choices
      (preTrace frames.length) hstart
    cases hf : (runAnalysis (mkCtx env url frames) choices
        (preTrace frames.length)).finished with
    | some e0 =>
      rw [pvu_analysis_err env choices url frames e0 hu hx hf] at hok
      cases hok
    | none =>
      obtain ⟨herrn, hwn, hrn⟩ := hdone hf
      rw [pvu_analysis_ok env choices url frames hu hx hf] at hok
      cases hok
      have hchar := results_characterization (mkCtx env url frames) _ hMF hwn hrn herrn
      constructor
      · exact hchar
      constructor
      · rw [hchar]
        exact canonicalIncidents_sorted frames env.frameEnv
          (extractFrames_timestamps env.extract frames hx)
      · rfl

/-! ## C8: error path cleanup -/

/-- C8: on any exception after a successful upload, the orchestrator emits
one error event carrying the exception message, attempts to delete the
uploaded video (best-effort: `deleteVideoBlob` absorbs any deletion
failure, and the run's output does not depend on the deletion outcome), and
rethrows the original exception (the outcome is `error e`). -/
theorem c8_error_cleanup (env : JobEnv) (choices : List Choice) (url e : String)
    (hu : env.uploadVideo = Except.ok url)
    (herr : (processVideoUpload env choices).outcome = Except.error e) :
    errEvents (processVideoUpload env choices).trace = [ProgressEvent.error e e] ∧
    url ∈ (processVideoUpload env choices).dels ∧
    (∀ d, deleteVideoBlob d = Except.ok ()) ∧
    (∀ d1 d2, processVideoUpload { env with delCall := d1 } choices =
              processVideoUpload { env with delCall := d2 } choices) := by
  have hdel : ∀ d, deleteVideoBlob d = Except.ok () := by
    intro d; cases d with
    | ok u => rfl
    | error e2 => rfl
  have hind : ∀ d1 d2, processVideoUpload { env with delCall := d1 } choices =
      processVideoUpload { env with delCall := d2 } choices := by
    intro d1 d2; rfl
  cases hx : (extractFrames env.extract).1 with
  | error e0 =>
    rw [pvu_extract_err env choices url e0 hu hx] at herr ⊢
    cases herr
    exact ⟨rfl, by simp, hdel, hind⟩
  | ok frames =>
    have hstart := mInv_start env url frames
    obtain ⟨hMF, hdone⟩ := runAnalysis_final (mkCtx env url frames) choices
      (preTrace frames.length) hstart
    cases hf : (runAnalysis (mkCtx env url frames) choices
        (preTrace frames.length)).finished with
    | some e0 =>
      rw [pvu_analysis_err env choices url frames e0 hu hx hf] at herr ⊢
      cases herr
      obtain ⟨herr2, hstage⟩ := hMF.fin _ hf
      have he := hMF.errEv
      rw [herr2, hstage] at he
      simp at he
      have hd := hMF.delsEq
      rw [hstage] at hd
      simp at hd
      refine ⟨he, ?_, hdel, hind⟩
      rw [hd]
      simp [mkCtx]
    | none =>
      rw [pvu_analysis_ok env choices url frames hu hx hf] at herr
      cases herr

/-! ## C3: single-frame classification failure does not abort the job -/

theorem processOneFrame_ok (f : Frame) (fe : FrameEnv)
    (hs : ∃ u, fe.screenshotUpload = Except.ok u) :
    ∃ v, processOneFrame f fe = Except.ok v := by
  obtain ⟨u, hu⟩ := hs
  unfold processOneFrame
  by_cases hf : (moderateFrame fe).isFlagged = true
  · rw [if_pos hf, hu]
    exact ⟨_, rfl⟩
  · rw [if_neg hf]
    exact ⟨none, rfl⟩

theorem taskOutcome_ok (frames : List Frame) (fenv : Nat → FrameEnv)
    (hs : ∀ i, ∃ u, (fenv i).screenshotUpload = Except.ok u) (i : Nat) :
    ∃ v, taskOutcome frames fenv i = Except.ok v := by
  unfold taskOutcome
  cases hg : frames.get? i with
  | none => exact ⟨none, rfl⟩
  | some f => exact processOneFrame_ok f (fenv i) (hs i)

/-- C3: if the classification call for frame 3 of 10 throws or times out,
the error is absorbed inside `moderateFrame` (whose result is marked
`fallback := true`), the job still completes, `totalFrames` is still 10,
and the incident list is still the canonical per-index list — the other
frames' results are untouched. -/
theorem c3_frame_failure_isolated (env : JobEnv) (choices : List Choice)
    (url : String) (frames : List Frame) (msg : String)
    (hu : env.uploadVideo = Except.ok url)
    (hx : (extractFrames env.extract).1 = Except.ok frames)
    (hn : frames.length = 10)
    (hfail : (env.frameEnv 3).classification = Except.error msg)
    (hshots : ∀ i, ∃ u, (env.frameEnv i).screenshotUpload = Except.ok u) :
    (moderateFrame (env.frameEnv 3)).fallback = true ∧
    ∃ r, (processVideoUpload env choices).outcome = Except.ok r ∧
      r.totalFrames = 10 ∧
      r.incidents = canonicalIncidents frames env.frameEnv := by
  constructor
  · unfold moderateFrame
    rw [show moderateContentSync (env.frameEnv 3).classification =
        Except.error msg by rw [hfail]; rfl]
    by_cases hroll : (env.frameEnv 3).fallbackRoll = true
    · simp [hroll]
    · simp [hroll]
  · have hstart := mInv_start env url frames
    obtain ⟨hMF, hdone⟩ := runAnalysis_final (mkCtx env url frames) choices
      (preTrace frames.length) hstart
    have hall : ∀ i, i < (mkCtx env url frames).frames.length →
        ∃ v, taskOutcome (mkCtx env url frames).frames
          (mkCtx env url frames).fenv i = Except.ok v := by
      intro i _
      exact taskOutcome_ok frames env.frameEnv hshots i
    have herrn : (runAnalysis (mkCtx env url frames) choices
        (preTrace frames.length)).err = none := by
      unfold runAnalysis
      exact runChoices_err_none _ _ _ hstart hall rfl
    have hf : (runAnalysis (mkCtx env url frames) choices
        (preTrace frames.length)).finished = none := by
      cases hff : (runAnalysis (mkCtx env url frames) choices
          (preTrace frames.length)).finished with
      | none => rfl
      | some e0 =>
        obtain ⟨herr2, _⟩ := hMF.fin e0 hff
        rw [herr2] at herrn
        cases herrn
    obtain ⟨_, hwn, hrn⟩ := hdone hf
    refine ⟨⟨(((runAnalysis (mkCtx env url frames) choices
          (preTrace frames.length)).results.filterMap id).filterMap id),
        frames.length, env.processedAt, ⟨env.filename⟩⟩, ?_, ?_, ?_⟩
    · rw [pvu_analysis_ok env choices url frames hu hx hf]
    · exact hn
    · exact results_characterization (mkCtx env url frames) _ hMF hwn hrn herrn

/-! ## C2: rating thresholds -/

/-- "Any category of this tier counts" as the code counts it: detected and
with confidence at least 3. -/
def anyDetectedGe3 (l : List CategoryDetection) : Prop :=
  ∃ c ∈ l, c.detected = true ∧ 3 ≤ c.confidence

instance (l : List CategoryDetection) : Decidable (anyDetectedGe3 l) :=
  inferInstanceAs (Decidable (∃ c ∈ l, c.detected = true ∧ 3 ≤ c.confidence))

theorem filter_pos_iff (l : List CategoryDetection) :
    (0 < (l.filter (fun c => c.detected && decide (3 ≤ c.confidence))).length) ↔
      anyDetectedGe3 l := by
  rw [List.length_pos_iff_exists_mem]
  constructor
  · rintro ⟨c, hc⟩
    rw [List.mem_filter] at hc
    refine ⟨c, hc.1, ?_⟩
    simpa using hc.2
  · rintro ⟨c, hcl, hcd, hcc⟩
    refine ⟨c, List.mem_filter.mpr ⟨hcl, ?_⟩⟩
    simp [hcd, hcc]

def mkCat (d : Bool) (c : Nat) : CategoryDetection :=
  { detected := d, confidence := c, reason := "" }

/-- An analysis with nothing detected and every confidence 1. -/
def safeAnalysis : ContentAnalysis :=
  { sixteenPlus :=
      { cursing := mkCat false 1,
        moderate_violence := mkCat false 1,
        strong_language := mkCat false 1,
        mild_sexual_content := mkCat false 1 },
    eighteenPlus :=
      { nudity := mkCat false 1,
        drug_use := mkCat false 1,
        rape := mkCat false 1,
        murder := mkCat false 1,
        stabbing := mkCat false 1,
        gore := mkCat false 1,
        extreme_profanity := mkCat false 1,
        disturbing_themes := mkCat false 1 } }

/-- The tier-B category `nudity` has confidence 5 but `detected = false`. -/
def c2CexAnalysis : ContentAnalysis :=
  { sixteenPlus := safeAnalysis.sixteenPlus,
    eighteenPlus :=
      { nudity := mkCat false 5,
        drug_use := mkCat false 1,
        rape := mkCat false 1,
        murder := mkCat false 1,
        stabbing := mkCat false 1,
        gore := mkCat false 1,
        extreme_profanity := mkCat false 1,
        disturbing_themes := mkCat false 1 } }

/-- C2 counterexample: the claim says confidence ≥ 3 for a tier-B category
alone forces the 18+ rating, but `calculateRating` also requires
`detected`: here `nudity` has confidence 5 ≥ 3 yet the rating is `safe`. -/
theorem c2_counterexample :
    3 ≤ c2CexAnalysis.eighteenPlus.nudity.confidence ∧
    (calculateRating c2CexAnalysis).rating = Rating.safe ∧
    (calculateRating c2CexAnalysis).rating ≠ Rating.eighteenPlus := by
  refine ⟨by decide, by decide, by decide⟩

/-- C2 (amended): the rating is 18+ iff some tier-B category is detected
with confidence ≥ 3; else 16+ iff some tier-A category is detected with
confidence ≥ 3; else safe.  A frame is flagged by `moderateFrame` exactly
when the rating is not safe — so a detected tier-B category at confidence
exactly 3 flags the frame 18+, while the same category at confidence 2
leaves it unflagged. -/
theorem c2_rating_thresholds (a : ContentAnalysis) :
    ((calculateRating a).rating = Rating.eighteenPlus ↔
      anyDetectedGe3 (eighteenPlusValues a.eighteenPlus)) ∧
    ((calculateRating a).rating = Rating.sixteenPlus ↔
      (¬ anyDetectedGe3 (eighteenPlusValues a.eighteenPlus) ∧
        anyDetectedGe3 (sixteenPlusValues a.sixteenPlus))) ∧
    ((calculateRating a).rating = Rating.safe ↔
      (¬ anyDetectedGe3 (eighteenPlusValues a.eighteenPlus) ∧
        ¬ anyDetectedGe3 (sixteenPlusValues a.sixteenPlus))) ∧
    (∀ fenv : FrameEnv, fenv.classification = Except.ok a →
      ((moderateFrame fenv).isFlagged = true ↔
        (calculateRating a).rating ≠ Rating.safe)) := by
  have h18 := filter_pos_iff (eighteenPlusValues a.eighteenPlus)
  have h16 := filter_pos_iff (sixteenPlusValues a.sixteenPlus)
  have hflag : ∀ fenv : FrameEnv, fenv.classification = Except.ok a →
      ((moderateFrame fenv).isFlagged = true ↔
        (calculateRating a).rating ≠ Rating.safe) := by
    intro fenv hcl
    have hms : moderateContentSync fenv.classification =
        Except.ok (calculateRating a) := by rw [hcl]; rfl
    cases hrr : (calculateRating a).rating with
    | safe => simp [moderateFrame, hms, hrr]
    | sixteenPlus => simp [moderateFrame, hms, hrr]
    | eighteenPlus => simp [moderateFrame, hms, hrr]
  by_cases hE : anyDetectedGe3 (eighteenPlusValues a.eighteenPlus)
  · have hr : (calculateRating a).rating = Rating.eighteenPlus := by
      simp only [calculateRating]
      rw [if_pos (h18.mpr hE)]
    refine ⟨?_, ?_, ?_, hflag⟩ <;> simp [hr, hE]
  · by_cases hS : anyDetectedGe3 (sixteenPlusValues a.sixteenPlus)
    · have hr : (calculateRating a).rating = Rating.sixteenPlus := by
        simp only [calculateRating]
        rw [if_neg (by rw [h18]; exact hE), if_pos (h16.mpr hS)]
      refine ⟨?_, ?_, ?_, hflag⟩ <;> simp [hr, hE, hS]
    · have hr : (calculateRating a).rating = Rating.safe := by
        simp only [calculateRating]
        rw [if_neg (by rw [h18]; exact hE), if_neg (by rw [h16]; exact hS)]
      refine ⟨?_, ?_, ?_, hflag⟩ <;> simp [hr, hE, hS]

/-! ## C10: incident confidence is the normalised highest confidence -/

theorem le_foldl_max (l : List Nat) (b : Nat) : b ≤ l.foldl max b := by
  induction l generalizing b with
  | nil => simp [List.foldl]
  | cons x xs ih => exact le_trans (Nat.le_max_left b x) (ih (max b x))

theorem mem_le_foldl_max : ∀ (l : List Nat) (b x : Nat), x ∈ l → x ≤ l.foldl max b := by
  intro l
  induction l with
  | nil => intro b x hx; cases hx
  | cons y ys ih =>
    intro b x hx
    rcases List.mem_cons.mp hx with h | h
    · subst h
      exact le_trans (Nat.le_max_right b x) (le_foldl_max ys (max b x))
    · exact ih (max b y) x h

theorem foldl_max_le (l : List Nat) (b : Nat) (hb : b ≤ 5)
    (h : ∀ x ∈ l, x ≤ 5) : l.foldl max b ≤ 5 := by
  induction l generalizing b with
  | nil => simpa [List.foldl]
  | cons x xs ih =>
    refine ih (max b x) (Nat.max_le.mpr ⟨hb, h x (by simp)⟩) ?_
    intro y hy
    exact h y (List.mem_cons_of_mem _ hy)

/-- C10: for a frame flagged via a successful classification, the incident
confidence is `summary.highestConfidence / 5`, where `highestConfidence`
ranges over all 12 categories — including those with `detected = false` —
so under the schema bound 1..5 the flagged confidence always lies in
[0.2, 1.0], and it can be driven by an undetected category (see the
witness). -/
theorem c10_confidence_from_highest (fenv : FrameEnv) (a : ContentAnalysis)
    (hcl : fenv.classification = Except.ok a)
    (hbounds : ∀ c ∈ allValues a, 1 ≤ c.confidence ∧ c.confidence ≤ 5)
    (hfl : (moderateFrame fenv).isFlagged = true) :
    (moderateFrame fenv).confidence =
      ((calculateRating a).summary.highestConfidence : ℚ) / 5 ∧
    (calculateRating a).summary.highestConfidence =
      ((allValues a).map (·.confidence)).foldl max 0 ∧
    1 ≤ (calculateRating a).summary.highestConfidence ∧
    (calculateRating a).summary.highestConfidence ≤ 5 ∧
    (1 : ℚ)/5 ≤ (moderateFrame fenv).confidence ∧
    (moderateFrame fenv).confidence ≤ 1 := by
  have hms : moderateContentSync fenv.classification =
      Except.ok (calculateRating a) := by rw [hcl]; rfl
  have hcond : (calculateRating a).rating = Rating.sixteenPlus ∨
      (calculateRating a).rating = Rating.eighteenPlus := by
    by_contra hcon
    simp [moderateFrame, hms, hcon] at hfl
  have hconf : (moderateFrame fenv).confidence =
      ((calculateRating a).summary.highestConfidence : ℚ) / 5 := by
    simp [moderateFrame, hms, hcond]
  have hsum : (calculateRating a).summary.highestConfidence =
      ((allValues a).map (·.confidence)).foldl max 0 := rfl
  have hone : 1 ≤ (calculateRating a).summary.highestConfidence := by
    rw [hsum]
    have hmem : a.sixteenPlus.cursing.confidence ∈
        (allValues a).map (·.confidence) := by
      simp [allValues, sixteenPlusValues]
    have h1 := (hbounds a.sixteenPlus.cursing
      (by simp [allValues, sixteenPlusValues])).1
    exact le_trans h1 (mem_le_foldl_max _ 0 _ hmem)
  have hfive : (calculateRating a).summary.highestConfidence ≤ 5 := by
    rw [hsum]
    refine foldl_max_le _ 0 (by omega) ?_
    intro x hx
    rw [List.mem_map] at hx
    obtain ⟨c, hc, hcx⟩ := hx
    rw [← hcx]
    exact (hbounds c hc).2
  refine ⟨hconf, hsum, hone, hfive, ?_, ?_⟩
  · rw [hconf]
    have h1 : (1 : ℚ) ≤ ((calculateRating a).summary.highestConfidence : ℚ) := by
      exact_mod_cast hone
    gcongr
  · rw [hconf]
    rw [div_le_one (by norm_num)]
    exact_mod_cast hfive

/-! ## C9: temp-file cleanup in extractFrames -/

def c9FailEnv : ExtractEnv :=
  { fetchOk := true, statusText := "", byteLen := 100, statSize := 100,
    ffmpegOk := false, ffmpegMsg := "ffmpeg exited with code 1",
    frameFiles := [] }

/-- C9 counterexample: when ffmpeg fails after the video was downloaded and
the frames directory created, `extractFrames` throws — and both the local
video file and the frames directory are still on disk, because the catch
block only logs and rethrows. -/
theorem c9_counterexample :
    (extractFrames c9FailEnv).1 = Except.error "ffmpeg exited with code 1" ∧
    (extractFrames c9FailEnv).2.videoFile = true ∧
    (extractFrames c9FailEnv).2.framesDir = true :=
  ⟨rfl, rfl, rfl⟩

/-- C9 (amended): `extractFrames` deletes the downloaded video file and the
scratch frames directory on the success path; on failure paths after the
download they remain on disk. -/
theorem c9_cleanup_on_success (env : ExtractEnv) (frames : List Frame)
    (h : (extractFrames env).1 = Except.ok frames) :
    (extractFrames env).2 = { videoFile := false, framesDir := false } := by
  cases hfetch : env.fetchOk with
  | false => unfold extractFrames at h; rw [hfetch] at h; simp at h
  | true =>
    by_cases hsz : env.statSize = env.byteLen
    · cases hff : env.ffmpegOk with
      | false =>
        unfold extractFrames at h; rw [hfetch, hff] at h; simp [hsz] at h
      | true =>
        unfold extractFrames
        rw [hfetch, hff]
        simp [hsz]
    · unfold extractFrames at h; rw [hfetch] at h; simp [hsz] at h


deriving instance DecidableEq for Except

/-! ## Concrete runs -/

/-- A frame whose classification finds nothing. -/
def okFrameEnv : FrameEnv :=
  { classification := .ok safeAnalysis, fallbackRoll := false,
    fallbackConfidence := 0, fallbackCategory := 0,
    screenshotUpload := .ok "https://blob/shot.jpg" }

/-- A frame whose classification throws, whose mock fallback flags it, and
whose screenshot upload then throws — so `processOneFrame` rejects. -/
def failFrameEnv : FrameEnv :=
  { classification := .error "api down", fallbackRoll := true,
    fallbackConfidence := (4 : ℚ)/5, fallbackCategory := 0,
    screenshotUpload := .error "shot upload failed" }

/-- A frame whose classification throws but whose screenshot upload works;
the fallback roll does not flag it. -/
def failClassFrameEnv : FrameEnv :=
  { classification := .error "api down", fallbackRoll := false,
    fallbackConfidence := 0, fallbackCategory := 0,
    screenshotUpload := .ok "https://blob/shot.jpg" }

def wExtract2 : ExtractEnv :=
  { fetchOk := true, statusText := "", byteLen := 10, statSize := 10,
    ffmpegOk := true, ffmpegMsg := "",
    frameFiles := ["frame-0001.jpg", "frame-0002.jpg"] }

def wFrames2 : List Frame :=
  [{ timestamp := 0, filename := "frame-0001.jpg" },
   { timestamp := 5, filename := "frame-0002.jpg" }]

def wBaseEnv : JobEnv :=
  { uploadVideo := .ok "https://blob/video.mp4", extract := wExtract2,
    frameEnv := fun _ => okFrameEnv,
    delCall := .ok (), processedAt := "2026-01-01T00:00:00.000Z",
    filename := "video.mp4" }

def wResult : JobResult :=
  { incidents := [], totalFrames := 2,
    processedAt := "2026-01-01T00:00:00.000Z",
    metadata := { filename := "video.mp4" } }

def c1CexEnv : JobEnv :=
  { uploadVideo := .ok "https://blob/video.mp4", extract := wExtract2,
    frameEnv := fun i => if i = 0 then failFrameEnv else okFrameEnv,
    delCall := .ok (), processedAt := "2026-01-01T00:00:00.000Z",
    filename := "video.mp4" }

def c1CexSched : List Choice :=
  [Choice.task 0, Choice.catchAct, Choice.task 0, Choice.catchAct, Choice.catchAct]

/-- C1 counterexample: with two frames in flight, frame 0's screenshot
upload rejects; the catch block writes the error event while frame 1 is
still running; frame 1 then completes and writes its `frameProcessed`
event after the error event — the terminal event is not the last event of
the sequence. -/
theorem c1_counterexample :
    (processVideoUpload c1CexEnv c1CexSched).outcome =
      Except.error "shot upload failed" ∧
    errEvents (processVideoUpload c1CexEnv c1CexSched).trace =
      [ProgressEvent.error "shot upload failed" "shot upload failed"] ∧
    (processVideoUpload c1CexEnv c1CexSched).trace.getLast? =
      some (ProgressEvent.frameProcessed "Processing frame 1 of 2" 1 2 65) ∧
    isTerminal (ProgressEvent.frameProcessed "Processing frame 1 of 2" 1 2 65) =
      false := by
  refine ⟨by decide, by decide, by decide, rfl⟩


/-! ## Witnesses -/

/-- Witness for C1 at a concrete failing run. -/
theorem c1_one_terminal_event_witness :
    errEvents (processVideoUpload c1CexEnv c1CexSched).trace =
      [ProgressEvent.error "shot upload failed" "shot upload failed"] ∧
    compEvents (processVideoUpload c1CexEnv c1CexSched).trace = [] :=
  (c1_one_terminal_event c1CexEnv c1CexSched).2 "shot upload failed" (by decide)

/-- `nudity` detected with confidence exactly 3. -/
def c2Scen3 : ContentAnalysis :=
  { sixteenPlus := safeAnalysis.sixteenPlus,
    eighteenPlus :=
      { nudity := mkCat true 3,
        drug_use := mkCat false 1,
        rape := mkCat false 1,
        murder := mkCat false 1,
        stabbing := mkCat false 1,
        gore := mkCat false 1,
        extreme_profanity := mkCat false 1,
        disturbing_themes := mkCat false 1 } }

/-- `nudity` detected with confidence 2. -/
def c2Scen2 : ContentAnalysis :=
  { sixteenPlus := safeAnalysis.sixteenPlus,
    eighteenPlus :=
      { nudity := mkCat true 2,
        drug_use := mkCat false 1,
        rape := mkCat false 1,
        murder := mkCat false 1,
        stabbing := mkCat false 1,
        gore := mkCat false 1,
        extreme_profanity := mkCat false 1,
        disturbing_themes := mkCat false 1 } }

/-- Witness for C2: a detected tier-B category at confidence exactly 3 is
rated 18+; the same category at confidence 2 is rated safe. -/
theorem c2_rating_thresholds_witness :
    (calculateRating c2Scen3).rating = Rating.eighteenPlus ∧
    (calculateRating c2Scen2).rating = Rating.safe :=
  ⟨(c2_rating_thresholds c2Scen3).1.mpr ⟨mkCat true 3, by decide, rfl, by decide⟩,
   (c2_rating_thresholds c2Scen2).2.2.1.mpr ⟨by decide, by decide⟩⟩

def wExtract10 : ExtractEnv :=
  { fetchOk := true, statusText := "", byteLen := 10, statSize := 10,
    ffmpegOk := true, ffmpegMsg := "",
    frameFiles := ["f01.jpg", "f02.jpg", "f03.jpg", "f04.jpg", "f05.jpg",
                   "f06.jpg", "f07.jpg", "f08.jpg", "f09.jpg", "f10.jpg"] }

def wFrames10 : List Frame :=
  [{ timestamp := 0, filename := "f01.jpg" },
   { timestamp := 5, filename := "f02.jpg" },
   { timestamp := 10, filename := "f03.jpg" },
   { timestamp := 15, filename := "f04.jpg" },
   { timestamp := 20, filename := "f05.jpg" },
   { timestamp := 25, filename := "f06.jpg" },
   { timestamp := 30, filename := "f07.jpg" },
   { timestamp := 35, filename := "f08.jpg" },
   { timestamp := 40, filename := "f09.jpg" },
   { timestamp := 45, filename := "f10.jpg" }]

def wC3Env : JobEnv :=
  { uploadVideo := .ok "https://blob/video.mp4", extract := wExtract10,
    frameEnv := fun i => if i = 3 then failClassFrameEnv else okFrameEnv,
    delCall := .ok (), processedAt := "2026-01-01T00:00:00.000Z",
    filename := "video.mp4" }

/-- Witness for C3: classification fails on frame 3 of 10 and the job still
completes with all ten frames accounted for. -/
theorem c3_frame_failure_isolated_witness :
    (moderateFrame (wC3Env.frameEnv 3)).fallback = true ∧
    ∃ r, (processVideoUpload wC3Env []).outcome = Except.ok r ∧
      r.totalFrames = 10 ∧
      r.incidents = canonicalIncidents wFrames10 wC3Env.frameEnv :=
  c3_frame_failure_isolated wC3Env [] "https://blob/video.mp4" wFrames10 "api down"
    rfl (by decide) (by decide) rfl
    (by
      intro i
      by_cases h : i = 3
      · exact ⟨"https://blob/shot.jpg", by simp [wC3Env, h, failClassFrameEnv]⟩
      · exact ⟨"https://blob/shot.jpg", by simp [wC3Env, h, okFrameEnv]⟩)

/-- Witness for C4 at a concrete failing run. -/
theorem c4_percent_monotone_witness :
    List.Chain' (· ≤ ·) (percents (processVideoUpload c1CexEnv c1CexSched).trace) :=
  (c4_percent_monotone c1CexEnv c1CexSched).1

def wCtx : AnCtx :=
  { frames := wFrames2, fenv := fun _ => okFrameEnv,
    videoUrl := "https://blob/video.mp4" }

/-- Witness for C5 at a concrete schedule. -/
theorem c5_concurrency_ceiling_witness :
    MAX_CONCURRENT = 10 ∧
    (runChoices wCtx [Choice.task 0] (initSt wCtx [])).running.length ≤
      MAX_CONCURRENT ∧
    ((runChoices wCtx [Choice.task 0] (initSt wCtx [])).waiting ≠ [] →
      (runChoices wCtx [Choice.task 0] (initSt wCtx [])).running.length =
        MAX_CONCURRENT) :=
  c5_concurrency_ceiling wCtx [] [Choice.task 0]

/-- Witness for C7 at a concrete completed run. -/
theorem c7_incidents_deterministic_witness :
    wResult.incidents = canonicalIncidents wFrames2 wBaseEnv.frameEnv ∧
    wResult.incidents.Pairwise (fun a b => a.timestamp < b.timestamp) ∧
    wResult.totalFrames = wFrames2.length :=
  c7_incidents_deterministic wBaseEnv [] wFrames2 wResult (by decide) (by decide)

def wC8Env : JobEnv :=
  { uploadVideo := .ok "https://blob/video.mp4", extract := c9FailEnv,
    frameEnv := fun _ => okFrameEnv, delCall := .ok (),
    processedAt := "2026-01-01T00:00:00.000Z", filename := "video.mp4" }

/-- Witness for C8: a concrete extraction-stage failure after a successful
upload. -/
theorem c8_error_cleanup_witness :
    errEvents (processVideoUpload wC8Env []).trace =
      [ProgressEvent.error "ffmpeg exited with code 1"
        "ffmpeg exited with code 1"] ∧
    "https://blob/video.mp4" ∈ (processVideoUpload wC8Env []).dels ∧
    (∀ d, deleteVideoBlob d = Except.ok ()) ∧
    (∀ d1 d2, processVideoUpload { wC8Env with delCall := d1 } [] =
              processVideoUpload { wC8Env with delCall := d2 } []) :=
  c8_error_cleanup wC8Env [] "https://blob/video.mp4" "ffmpeg exited with code 1"
    rfl (by decide)

/-- Witness for C9's amended success-path statement. -/
theorem c9_cleanup_on_success_witness :
    (extractFrames wExtract2).2 = { videoFile := false, framesDir := false } :=
  c9_cleanup_on_success wExtract2 wFrames2 (by decide)

/-- `cursing` detected at confidence 3 (drives the 16+ rating); `nudity`
NOT detected but at confidence 5 (drives `highestConfidence`). -/
def c10WitAnalysis : ContentAnalysis :=
  { sixteenPlus :=
      { cursing := mkCat true 3,
        moderate_violence := mkCat false 1,
        strong_language := mkCat false 1,
        mild_sexual_content := mkCat false 1 },
    eighteenPlus :=
      { nudity := mkCat false 5,
        drug_use := mkCat false 1,
        rape := mkCat false 1,
        murder := mkCat false 1,
        stabbing := mkCat false 1,
        gore := mkCat false 1,
        extreme_profanity := mkCat false 1,
        disturbing_themes := mkCat false 1 } }

def c10WitFenv : FrameEnv :=
  { classification := .ok c10WitAnalysis, fallbackRoll := false,
    fallbackConfidence := 0, fallbackCategory := 0,
    screenshotUpload := .ok "https://blob/shot.jpg" }

/-- Witness for C10; the maximum confidence comes from the undetected
`nudity` category. -/
theorem c10_confidence_from_highest_witness :
    ((moderateFrame c10WitFenv).confidence =
      ((calculateRating c10WitAnalysis).summary.highestConfidence : ℚ) / 5 ∧
     (calculateRating c10WitAnalysis).summary.highestConfidence =
      ((allValues c10WitAnalysis).map (·.confidence)).foldl max 0 ∧
     1 ≤ (calculateRating c10WitAnalysis).summary.highestConfidence ∧
     (calculateRating c10WitAnalysis).summary.highestConfidence ≤ 5 ∧
     (1 : ℚ)/5 ≤ (moderateFrame c10WitFenv).confidence ∧
     (moderateFrame c10WitFenv).confidence ≤ 1) ∧
    c10WitAnalysis.eighteenPlus.nudity.detected = false ∧
    (calculateRating c10WitAnalysis).summary.highestConfidence = 5 :=
  ⟨c10_confidence_from_highest c10WitFenv c10WitAnalysis rfl (by decide) (by decide),
   rfl, by decide⟩

/-! ## C6 groundwork: decimal digits -/

def digitChar (n : Nat) : Char := Char.ofNat (48 + n)

def isDigit (c : Char) : Bool := 48 ≤ c.toNat && c.toNat ≤ 57

def digitVal (c : Char) : Nat := c.toNat - 48

/-- Decimal digits of `n`, most significant first (`JSON.stringify` of an
integer-valued number). -/
def natToDigitsAux : Nat → Nat → List Char → List Char
  | 0, _, acc => acc
  | fuel+1, n, acc =>
    if n < 10 then digitChar n :: acc
    else natToDigitsAux fuel (n / 10) (digitChar (n % 10) :: acc)

def natToDigits (n : Nat) : List Char := natToDigitsAux (n+1) n []

def digitStep (acc : Nat) (c : Char) : Nat := acc * 10 + digitVal c

def digitsToNat (ds : List Char) : Nat := ds.foldl digitStep 0

theorem toNat_digitChar (n : Nat) (h : n < 10) : (digitChar n).toNat = 48 + n := by
  unfold digitChar
  have : 48 + n < 1114112 := by omega
  interval_cases n <;> rfl

theorem digitVal_digitChar (n : Nat) (h : n < 10) : digitVal (digitChar n) = n := by
  unfold digitVal
  rw [toNat_digitChar n h]
  omega

theorem isDigit_digitChar (n : Nat) (h : n < 10) : isDigit (digitChar n) = true := by
  unfold isDigit
  rw [toNat_digitChar n h]
  simp
  omega

theorem natToDigitsAux_foldl :
    ∀ (fuel n : Nat) (acc : List Char), n < fuel →
      (natToDigitsAux fuel n acc).foldl digitStep 0 = acc.foldl digitStep n := by
  intro fuel
  induction fuel with
  | zero => intro n acc h; omega
  | succ f ih =>
    intro n acc h
    unfold natToDigitsAux
    by_cases h10 : n < 10
    · rw [if_pos h10]
      simp [List.foldl, digitStep, digitVal_digitChar n h10]
    · rw [if_neg h10]
      have hrec : n / 10 < f := by
        have h1 : n / 10 < n := Nat.div_lt_self (by omega) (by omega)
        omega
      rw [ih (n / 10) _ hrec]
      simp [List.foldl, digitStep, digitVal_digitChar (n % 10) (Nat.mod_lt n (by omega))]
      have heq : n / 10 * 10 + n % 10 = n := by omega
      rw [heq]

theorem digitsToNat_natToDigits (n : Nat) : digitsToNat (natToDigits n) = n := by
  unfold digitsToNat natToDigits
  rw [natToDigitsAux_foldl (n+1) n [] (by omega)]
  rfl

theorem natToDigitsAux_digits :
    ∀ (fuel n : Nat) (acc : List Char), (∀ c ∈ acc, isDigit c = true) →
      ∀ c ∈ natToDigitsAux fuel n acc, isDigit c = true := by
  intro fuel
  induction fuel with
  | zero => intro n acc hacc; exact hacc
  | succ f ih =>
    intro n acc hacc c hc
    unfold natToDigitsAux at hc
    by_cases h10 : n < 10
    · rw [if_pos h10] at hc
      rcases List.mem_cons.mp hc with h | h
      · rw [h]; exact isDigit_digitChar n h10
      · exact hacc c h
    · rw [if_neg h10] at hc
      refine ih (n / 10) _ ?_ c hc
      intro c2 hc2
      rcases List.mem_cons.mp hc2 with h | h
      · rw [h]; exact isDigit_digitChar (n % 10) (Nat.mod_lt n (by omega))
      · exact hacc c2 h

theorem natToDigits_digits (n : Nat) : ∀ c ∈ natToDigits n, isDigit c = true :=
  natToDigitsAux_digits (n+1) n [] (by intro c hc; cases hc)

theorem natToDigitsAux_ne_nil (fuel n : Nat) (acc : List Char) (h : n < fuel) :
    natToDigitsAux fuel n acc ≠ [] := by
  induction fuel generalizing n acc with
  | zero => omega
  | succ f ih =>
    unfold natToDigitsAux
    by_cases h10 : n < 10
    · rw [if_pos h10]; simp
    · rw [if_neg h10]
      have hrec : n / 10 < f := by
        have h1 : n / 10 < n := Nat.div_lt_self (by omega) (by omega)
        omega
      exact ih (n / 10) _ hrec

theorem natToDigits_ne_nil (n : Nat) : natToDigits n ≠ [] :=
  natToDigitsAux_ne_nil (n+1) n [] (by omega)

theorem natToDigitsAux_length :
    ∀ (fuel n d : Nat) (acc : List Char), n < fuel → n < 10 ^ d → 0 < d →
      (natToDigitsAux fuel n acc).length ≤ d + acc.length := by
  intro fuel
  induction fuel with
  | zero => intro n d acc h; omega
  | succ f ih =>
    intro n d acc h hd hdpos
    unfold natToDigitsAux
    by_cases h10 : n < 10
    · rw [if_pos h10]; simp; omega
    · rw [if_neg h10]
      have hd2 : 2 ≤ d := by
        by_contra hcon
        have : d = 1 := by omega
        rw [this] at hd
        simp at hd
        omega
      have hrec : n / 10 < f := by
        have h1 : n / 10 < n := Nat.div_lt_self (by omega) (by omega)
        omega
      have hdiv : n / 10 < 10 ^ (d - 1) := by
        rw [Nat.div_lt_iff_lt_mul (by omega)]
        have : 10 ^ (d - 1) * 10 = 10 ^ d := by
          rw [← pow_succ]
          congr 1
          omega
        omega
      have := ih (n / 10) (d - 1) (digitChar (n % 10) :: acc) hrec hdiv (by omega)
      simp at this ⊢
      omega

theorem natToDigits_length (n d : Nat) (hn : n < 10 ^ d) (hd : 0 < d) :
    (natToDigits n).length ≤ d :=
  by simpa using natToDigitsAux_length (n+1) n d [] (by omega) hn hd

/-- Leading zeros do not change the parsed value. -/
theorem digitsToNat_replicate_zero (k : Nat) (ds : List Char) :
    digitsToNat (List.replicate k '0' ++ ds) = digitsToNat ds := by
  induction k with
  | zero => rfl
  | succ k2 ih =>
    rw [List.replicate_succ]
    unfold digitsToNat at ih ⊢
    simpa [List.foldl, digitStep, digitVal] using ih

/-! ## C6: JSON string escaping (as `JSON.stringify` escapes) -/

def hexDigitChar (n : Nat) : Char :=
  if n < 10 then digitChar n else Char.ofNat (97 + (n - 10))

/-- The escape `JSON.stringify` applies to one character: `"` and `\`
escaped, the named control escapes, `\u00XX` for other control characters,
everything else verbatim. -/
def escChar (c : Char) : List Char :=
  if c = '"' then ['\\', '"']
  else if c = '\\' then ['\\', '\\']
  else if c = '\x08' then ['\\', 'b']
  else if c = '\x0c' then ['\\', 'f']
  else if c = '\n' then ['\\', 'n']
  else if c = '\r' then ['\\', 'r']
  else if c = '\t' then ['\\', 't']
  else if c.toNat < 32 then
    ['\\', 'u', '0', '0', hexDigitChar (c.toNat / 16), hexDigitChar (c.toNat % 16)]
  else [c]

def escString : List Char → List Char
  | [] => []
  | c :: cs => escChar c ++ escString cs

def hexVal (c : Char) : Option Nat :=
  if 48 ≤ c.toNat ∧ c.toNat ≤ 57 then some (c.toNat - 48)
  else if 97 ≤ c.toNat ∧ c.toNat ≤ 102 then some (c.toNat - 87)
  else if 65 ≤ c.toNat ∧ c.toNat ≤ 70 then some (c.toNat - 55)
  else none

/-- `JSON.parse` of a string body: consume up to the closing quote,
decoding escapes; raw control characters are rejected. -/
def parseStringBody : List Char → Option (List Char × List Char)
  | [] => none
  | c :: cs =>
    if c = '"' then some ([], cs)
    else if c = '\\' then
      match cs with
      | [] => none
      | 'u' :: h1 :: h2 :: h3 :: h4 :: cs2 =>
        match hexVal h1, hexVal h2, hexVal h3, hexVal h4 with
        | some a, some b, some c2, some d =>
          (fun p => (Char.ofNat (((a * 16 + b) * 16 + c2) * 16 + d) :: p.1, p.2)) <$>
            parseStringBody cs2
        | _, _, _, _ => none
      | e :: cs2 =>
        match (if e = '"' then some '"'
               else if e = '\\' then some '\\'
               else if e = '/' then some '/'
               else if e = 'b' then some '\x08'
               else if e = 'f' then some '\x0c'
               else if e = 'n' then some '\n'
               else if e = 'r' then some '\r'
               else if e = 't' then some '\t'
               else none) with
        | some d => (fun p => (d :: p.1, p.2)) <$> parseStringBody cs2
        | none => none
    else if c.toNat < 32 then none
    else (fun p => (c :: p.1, p.2)) <$> parseStringBody cs
termination_by l => l.length
decreasing_by all_goals simp_wf <;> omega

theorem hexVal_hexDigitChar (n : Nat) (h : n < 16) :
    hexVal (hexDigitChar n) = some n := by
  interval_cases n <;> rfl

theorem parseStringBody_escString (s : List Char) (rest : List Char) :
    parseStringBody (escString s ++ '"' :: rest) = some (s, rest) := by
  induction s with
  | nil =>
    show parseStringBody ('"' :: rest) = some ([], rest)
    unfold parseStringBody
    rw [if_pos rfl]
  | cons c cs ih =>
    show parseStringBody (escChar c ++ escString cs ++ '"' :: rest) = _
    unfold escChar
    by_cases h1 : c = '"'
    · subst h1
      rw [if_pos rfl]
      show parseStringBody ('\\' :: '"' :: (escString cs ++ '"' :: rest)) = _
      unfold parseStringBody
      rw [if_neg (by decide), if_pos rfl]
      simp [ih]
    · rw [if_neg h1]
      by_cases h2 : c = '\\'
      · subst h2
        rw [if_pos rfl]
        show parseStringBody ('\\' :: '\\' :: (escString cs ++ '"' :: rest)) = _
        unfold parseStringBody
        rw [if_neg (by decide), if_pos rfl]
        simp [ih]
      · rw [if_neg h2]
        by_cases h3 : c = '\x08'
        · subst h3
          rw [if_pos rfl]
          show parseStringBody ('\\' :: 'b' :: (escString cs ++ '"' :: rest)) = _
          unfold parseStringBody
          rw [if_neg (by decide), if_pos rfl]
          simp [ih]
        · rw [if_neg h3]
          by_cases h4 : c = '\x0c'
          · subst h4
            rw [if_pos rfl]
            show parseStringBody ('\\' :: 'f' :: (escString cs ++ '"' :: rest)) = _
            unfold parseStringBody
            rw [if_neg (by decide), if_pos rfl]
            simp [ih]
          · rw [if_neg h4]
            by_cases h5 : c = '\n'
            · subst h5
              rw [if_pos rfl]
              show parseStringBody ('\\' :: 'n' :: (escString cs ++ '"' :: rest)) = _
              unfold parseStringBody
              rw [if_neg (by decide), if_pos rfl]
              simp [ih]
            · rw [if_neg h5]
              by_cases h6 : c = '\r'
              · subst h6
                rw [if_pos rfl]
                show parseStringBody ('\\' :: 'r' :: (escString cs ++ '"' :: rest)) = _
                unfold parseStringBody
                rw [if_neg (by decide), if_pos rfl]
                simp [ih]
              · rw [if_neg h6]
                by_cases h7 : c = '\t'
                · subst h7
                  rw [if_pos rfl]
                  show parseStringBody ('\\' :: 't' :: (escString cs ++ '"' :: rest)) = _
                  unfold parseStringBody
                  rw [if_neg (by decide), if_pos rfl]
                  simp [ih]
                · rw [if_neg h7]
                  by_cases h8 : c.toNat < 32
                  · rw [if_pos h8]
                    show parseStringBody ('\\' :: 'u' :: '0' :: '0' ::
                      hexDigitChar (c.toNat / 16) :: hexDigitChar (c.toNat % 16) ::
                      (escString cs ++ '"' :: rest)) = _
                    unfold parseStringBody
                    rw [if_neg (by decide), if_pos rfl]
                    have hh1 : hexVal (hexDigitChar (c.toNat / 16)) =
                        some (c.toNat / 16) := hexVal_hexDigitChar _ (by omega)
                    have hh2 : hexVal (hexDigitChar (c.toNat % 16)) =
                        some (c.toNat % 16) := hexVal_hexDigitChar _ (by omega)
                    have hc : ∀ m, m = c.toNat →
                        Char.ofNat m = c := by
                      intro m hm
                      rw [hm]
                      exact Char.ofNat_toNat c
                    simp [ih, hh1, hh2, show hexVal '0' = some 0 from rfl]
                    exact hc _ (by omega)
                  · rw [if_neg h8]
                    show parseStringBody (c :: (escString cs ++ '"' :: rest)) = _
                    unfold parseStringBody
                    rw [if_neg h1, if_neg h2, if_neg (by omega)]
                    simp [ih]

/-! ## C6: primitive parsers -/

def expectLit : List Char → List Char → Option (List Char)
  | [], input => some input
  | _ :: _, [] => none
  | p :: ps, c :: cs => if c = p then expectLit ps cs else none

theorem expectLit_append (p rest : List Char) : expectLit p (p ++ rest) = some rest := by
  induction p with
  | nil => rfl
  | cons c cs ih => simp [expectLit, ih]

def lit (s : String) : List Char := s.data

def parseJStr (input : List Char) : Option (String × List Char) :=
  match input with
  | '"' :: rest =>
    match parseStringBody rest with
    | some (s, r) => some (String.mk s, r)
    | none => none
  | _ => none

def jstr (s : String) : List Char := '"' :: (escString s.data ++ ['"'])

theorem parseJStr_append (s : String) (rest : List Char) :
    parseJStr (jstr s ++ rest) = some (s, rest) := by
  have hassoc : jstr s ++ rest = '"' :: (escString s.data ++ '"' :: rest) := by
    simp [jstr]
  rw [hassoc]
  show (match parseStringBody (escString s.data ++ '"' :: rest) with
        | some (s2, r) => some (String.mk s2, r)
        | none => none) = some (s, rest)
  rw [parseStringBody_escString]

def parseNat (input : List Char) : Option (Nat × List Char) :=
  match input.takeWhile isDigit with
  | [] => none
  | ds => some (digitsToNat ds, input.dropWhile isDigit)

theorem takeWhile_append_all {p : Char → Bool} (l r : List Char)
    (hl : ∀ c ∈ l, p c = true) (hr : ∀ c, r.head? = some c → p c = false) :
    (l ++ r).takeWhile p = l ∧ (l ++ r).dropWhile p = r := by
  induction l with
  | nil =>
    cases r with
    | nil => exact ⟨rfl, rfl⟩
    | cons c cs =>
      have := hr c rfl
      constructor
      · show List.takeWhile p (c :: cs) = []
        simp [List.takeWhile_cons, this]
      · show List.dropWhile p (c :: cs) = c :: cs
        simp [List.dropWhile_cons, this]
  | cons a l2 ih =>
    have ha := hl a (by simp)
    obtain ⟨iht, ihd⟩ := ih (fun c hc => hl c (List.mem_cons_of_mem _ hc))
    constructor
    · show List.takeWhile p (a :: (l2 ++ r)) = a :: l2
      rw [List.takeWhile_cons, ha]
      simp [iht]
    · show List.dropWhile p (a :: (l2 ++ r)) = r
      rw [List.dropWhile_cons, ha]
      simpa using ihd

theorem parseNat_append (n : Nat) (rest : List Char)
    (hr : ∀ c, rest.head? = some c → isDigit c = false) :
    parseNat (natToDigits n ++ rest) = some (n, rest) := by
  obtain ⟨ht, hd⟩ := takeWhile_append_all (natToDigits n) rest (natToDigits_digits n) hr
  unfold parseNat
  rw [ht, hd]
  cases hnd : natToDigits n with
  | nil => exact absurd hnd (natToDigits_ne_nil n)
  | cons c cs =>
    show some (digitsToNat (c :: cs), rest) = some (n, rest)
    rw [← hnd, digitsToNat_natToDigits]

/-! ## C6: shortest-decimal rendering of the JavaScript numbers -/

def countFactor (p : Nat) : Nat → Nat → Nat
  | 0, _ => 0
  | fuel+1, n => if n % p = 0 ∧ n ≠ 0 then countFactor p fuel (n / p) + 1 else 0

/-- The number of fractional digits `JSON.stringify` prints for a decimal
fraction in lowest terms. -/
def decExp (den : Nat) : Nat := max (countFactor 2 den den) (countFactor 5 den den)

/-- Rationals that are finite non-negative decimals — every non-negative
JavaScript number is one. -/
def IsDecimalRat (q : ℚ) : Prop := 0 ≤ q.num ∧ q.den ∣ 10 ^ decExp q.den

instance (q : ℚ) : Decidable (IsDecimalRat q) :=
  inferInstanceAs (Decidable (_ ∧ _))

def decMantissa (q : ℚ) : Nat := q.num.toNat * (10 ^ decExp q.den / q.den)

def leftPad0 (d : Nat) (ds : List Char) : List Char :=
  List.replicate (d - ds.length) '0' ++ ds

def renderDec (q : ℚ) : List Char :=
  if decExp q.den = 0 then natToDigits (decMantissa q)
  else natToDigits (decMantissa q / 10 ^ decExp q.den) ++
       '.' :: leftPad0 (decExp q.den) (natToDigits (decMantissa q % 10 ^ decExp q.den))

def parseDec (input : List Char) : Option (ℚ × List Char) :=
  match parseNat input with
  | none => none
  | some (ipart, rest) =>
    if rest.head? = some '.' then
      match (rest.tail.takeWhile isDigit), (rest.tail.dropWhile isDigit) with
      | [], _ => none
      | ds, rest2 => some ((ipart : ℚ) + (digitsToNat ds : ℚ) / (10:ℚ) ^ ds.length, rest2)
    else some ((ipart : ℚ), rest)

theorem decMantissa_div (q : ℚ) (hq : IsDecimalRat q) :
    (decMantissa q : ℚ) / (10:ℚ) ^ decExp q.den = q := by
  have hden0 : (q.den : ℚ) ≠ 0 := by
    exact_mod_cast (Rat.den_pos q).ne'
  have hmul : q.den * (10 ^ decExp q.den / q.den) = 10 ^ decExp q.den :=
    Nat.mul_div_cancel' hq.2
  have h10 : ((10:ℚ)) ^ decExp q.den ≠ 0 := by positivity
  have hnum : (q.num.toNat : ℚ) = (q.num : ℚ) := by
    exact_mod_cast Int.toNat_of_nonneg hq.1
  rw [div_eq_iff h10]
  unfold decMantissa
  have hcast : ((q.num.toNat * (10 ^ decExp q.den / q.den) : Nat) : ℚ) =
      (q.num : ℚ) * ((10 ^ decExp q.den / q.den : Nat) : ℚ) := by
    push_cast [hnum]
    ring
  rw [hcast]
  have hten : ((10:ℚ)) ^ decExp q.den =
      (q.den : ℚ) * ((10 ^ decExp q.den / q.den : Nat) : ℚ) := by
    exact_mod_cast congrArg (fun n : Nat => (n : ℚ)) hmul.symm
  have hqden : q * (q.den : ℚ) = (q.num : ℚ) := by
    rw [eq_comm, ← div_eq_iff hden0]
    exact Rat.num_div_den q
  rw [hten, ← hqden]
  ring


theorem parseDec_renderDec (q : ℚ) (hq : IsDecimalRat q) (rest : List Char)
    (hd : ∀ c, rest.head? = some c → isDigit c = false)
    (hdot : rest.head? ≠ some '.') :
    parseDec (renderDec q ++ rest) = some (q, rest) := by
  have hqval := decMantissa_div q hq
  by_cases hz : decExp q.den = 0
  · have hrender : renderDec q = natToDigits (decMantissa q) := by
      unfold renderDec
      rw [if_pos hz]
    rw [hrender]
    unfold parseDec
    rw [parseNat_append _ _ hd]
    show (if rest.head? = some '.' then _ else some (((decMantissa q : Nat) : ℚ), rest)) =
      some (q, rest)
    rw [if_neg hdot]
    rw [hz] at hqval
    simp at hqval
    rw [hqval]
  · have hrender : renderDec q = natToDigits (decMantissa q / 10 ^ decExp q.den) ++
        '.' :: leftPad0 (decExp q.den)
          (natToDigits (decMantissa q % 10 ^ decExp q.den)) := by
      unfold renderDec
      rw [if_neg hz]
    set d := decExp q.den with hdd
    set m := decMantissa q with hmm2
    set pad := leftPad0 d (natToDigits (m % 10 ^ d)) with hpaddef
    rw [hrender]
    have hassoc : (natToDigits (m / 10 ^ d) ++ '.' :: pad) ++ rest
        = natToDigits (m / 10 ^ d) ++ ('.' :: (pad ++ rest)) := by
      simp
    rw [hassoc]
    unfold parseDec
    rw [parseNat_append _ _ (by intro c hc; simp at hc; rw [← hc]; rfl)]
    show (if ('.' :: (pad ++ rest)).head? = some '.' then
        (match ('.' :: (pad ++ rest)).tail.takeWhile isDigit,
               ('.' :: (pad ++ rest)).tail.dropWhile isDigit with
         | [], _ => none
         | ds, rest2 => some (((m / 10 ^ d : Nat) : ℚ) +
             (digitsToNat ds : ℚ) / (10:ℚ) ^ ds.length, rest2))
      else some (((m / 10 ^ d : Nat) : ℚ), '.' :: (pad ++ rest))) = some (q, rest)
    rw [if_pos (show ('.' :: (pad ++ rest)).head? = some '.' from rfl)]
    have hpadDigits : ∀ c ∈ pad, isDigit c = true := by
      intro c hc
      rw [hpaddef] at hc
      unfold leftPad0 at hc
      rw [List.mem_append] at hc
      rcases hc with hc | hc
      · rw [List.eq_of_mem_replicate hc]; rfl
      · exact natToDigits_digits _ c hc
    obtain ⟨ht, hdw⟩ := takeWhile_append_all pad rest hpadDigits hd
    have hpow : 0 < 10 ^ d := by positivity
    have hlen : pad.length = d := by
      rw [hpaddef]
      unfold leftPad0
      have hl1 := natToDigits_length (m % 10 ^ d) d (Nat.mod_lt _ hpow) (by omega)
      simp
      omega
    show (match (pad ++ rest).takeWhile isDigit, (pad ++ rest).dropWhile isDigit with
         | [], _ => none
         | ds, rest2 => some (((m / 10 ^ d : Nat) : ℚ) +
             (digitsToNat ds : ℚ) / (10:ℚ) ^ ds.length, rest2)) = some (q, rest)
    rw [ht, hdw]
    have hne : pad ≠ [] := by
      intro hcon
      rw [hcon] at hlen
      simp at hlen
      omega
    cases hpl : pad with
    | nil => exact absurd hpl hne
    | cons pc pcs =>
      show some (((m / 10 ^ d : Nat) : ℚ) +
          (digitsToNat (pc :: pcs) : ℚ) / (10:ℚ) ^ (pc :: pcs).length, rest) =
        some (q, rest)
      rw [← hpl]
      have hdsval : digitsToNat pad = m % 10 ^ d := by
        rw [hpaddef]
        unfold leftPad0
        rw [digitsToNat_replicate_zero, digitsToNat_natToDigits]
      rw [hdsval, hlen]
      have hsplit : (10 ^ d) * (m / 10 ^ d) + m % 10 ^ d = m := Nat.div_add_mod m (10 ^ d)
      have hQ : ((m / 10 ^ d : Nat) : ℚ) + ((m % 10 ^ d : Nat) : ℚ) / (10:ℚ) ^ d =
          ((m : Nat) : ℚ) / (10:ℚ) ^ d := by
        have h10 : ((10:ℚ)) ^ d ≠ 0 := by positivity
        have hmQ : ((10:ℚ) ^ d) * ((m / 10 ^ d : Nat) : ℚ) + ((m % 10 ^ d : Nat) : ℚ) =
            ((m : Nat) : ℚ) := by
          exact_mod_cast congrArg (fun n : Nat => (n : ℚ)) hsplit
        field_simp
        linarith
      rw [hQ, hqval]

end VideoWorkflow

